import Mathlib

/-!
Verification of the FinTrack AI-categorisation pipeline
(`src/FinTrack/07_AI_categorisation`).

Shallow embedding conventions:
* Python strings are modelled as lists of characters (`Str`), so that
  `lower`, `strip`, substring tests and lexicographic sorting are
  structurally recursive and kernel-reducible.  Python's `in` on strings
  is the list-infix relation `<:+:`; `str.lower()` is `Char.toLower`
  mapped over the characters; `str.strip()` drops whitespace at both
  ends.
* JSON objects handled by the scripts are modelled by records with the
  fields the code reads (`.get` defaults are represented by the empty
  string / `none` for an absent `confidence`).
* Python `dict`s (insertion-ordered) are association lists; Python
  `set`s are duplicate-free lists built by insertion-ordered adds, and
  statements about them are phrased through membership.
* Floats that the code only stores and compares (`confidence`) and the
  coverage percentage are modelled as rationals.
-/

/-- A Python string, viewed as its list of characters. -/
abbrev Str : Type := List Char

/-- `s.lower()`: lowercase every character. -/
def pyLower (s : Str) : Str := s.map Char.toLower

/-- `s.strip()`: drop whitespace from both ends. -/
def pyStrip (s : Str) : Str :=
  ((s.dropWhile Char.isWhitespace).reverse.dropWhile Char.isWhitespace).reverse

/-- Lexicographic (code-point) order on strings, Python's `<=` used by `sorted`. -/
def strLeB : Str → Str → Bool
  | [], _ => true
  | _ :: _, [] => false
  | a :: as, b :: bs => if a < b then true else if b < a then false else strLeB as bs

/-- Insert into a list assuming the tail is sorted by `le` (helper for `sortLe`). -/
def insertLe {α : Type} (le : α → α → Bool) (x : α) : List α → List α
  | [] => [x]
  | y :: ys => if le x y then x :: y :: ys else y :: insertLe le x ys

/-- Insertion sort; stands for Python's `sorted` (all uses sort lists whose
sort keys are pairwise distinct, so any correct sort yields the same list). -/
def sortLe {α : Type} (le : α → α → Bool) : List α → List α
  | [] => []
  | x :: xs => insertLe le x (sortLe le xs)

/-- A transaction record, with the three free-text fields the pipeline reads. -/
structure Transaction where
  sender_receiver : Str
  booking_text : Str
  purpose : Str
deriving DecidableEq, Repr

/-- A keyword entry (`GenCat.KeywordEntry`); `confidence` is `none` when the
raw JSON object lacks the field (the cleaner reads it with default `None`). -/
structure KeywordEntry where
  keyword : Str
  reasoning : Str
  confidence : Option ℚ
deriving DecidableEq, Repr

/-- A categorisation entry (`GenCat.GenAICat`): a category name with its keywords. -/
structure GenAICat where
  Category : Str
  Keywords : List KeywordEntry
deriving DecidableEq, Repr

/-- The literal string `"Other"` from `clean_ai_categorisation.py`. -/
def strOther : Str := "Other".data

/-- One step of the cleaner's keyword-conflict resolution
(`clean_ai_categorisation.py`, the loop body over `(entry, kw_obj)`):
the association list maps a stripped keyword to its assigned category and
stored entry; a duplicate keyword is reassigned only when the previous
category is exactly `"Other"` and the new one is not. -/
def cleanAssignStep (m : List (Str × Str × KeywordEntry)) (cat : Str)
    (kwObj : KeywordEntry) : List (Str × Str × KeywordEntry) :=
  let kwClean := pyStrip kwObj.keyword
  let e : KeywordEntry := ⟨kwClean, kwObj.reasoning, kwObj.confidence⟩
  match m.find? (fun p => decide (p.1 = kwClean)) with
  | some prev =>
    if prev.2.1 = strOther ∧ cat ≠ strOther then
      m.map (fun p => if p.1 = kwClean then (p.1, cat, e) else p)
    else m
  | none => m ++ [(kwClean, cat, e)]

/-- The cleaner's `keyword_to_category` dict after the merge loop:
all `(category, keyword)` pairs are processed in arrival order. -/
def keyword_to_category (data : List GenAICat) : List (Str × Str × KeywordEntry) :=
  data.foldl
    (fun m entry =>
      entry.Keywords.foldl (fun m2 k => cleanAssignStep m2 (pyStrip entry.Category) k) m)
    []

/-- Order on keyword entries used for the cleaner's per-category `sorted` call. -/
def kwEntryLe (a b : KeywordEntry) : Bool := strLeB a.keyword b.keyword

/-- `clean_ai_categorisation`: resolve keyword conflicts, group by category,
sort categories and each category's keywords lexicographically. -/
def clean_ai_categorisation (data : List GenAICat) : List GenAICat :=
  let m := keyword_to_category data
  (sortLe strLeB (m.map (fun p => p.2.1)).dedup).map (fun c =>
    ⟨c, sortLe kwEntryLe ((m.filter (fun p => decide (p.2.1 = c))).map (fun p => p.2.2))⟩)

/-- The transaction text (`gen_cat_eval.py`): lowercased concatenation of
`sender_receiver`, `booking_text` and `purpose`, separated by single spaces. -/
def txText (tx : Transaction) : Str :=
  pyLower (tx.sender_receiver ++ [' '] ++ tx.booking_text ++ [' '] ++ tx.purpose)

/-- Add an element to a Python-set-as-list (no-op when already present). -/
def addCat (l : List Str) (c : Str) : List Str := if c ∈ l then l else l ++ [c]

/-- One step of `build_keyword_mappings`: record that (lowercased, stripped)
keyword `kwl` belongs to category `cat` in the `keyword_to_category` map. -/
def kwMapStep (m : List (Str × List Str)) (cat kwl : Str) : List (Str × List Str) :=
  if m.any (fun p => decide (p.1 = kwl)) then
    m.map (fun p => if p.1 = kwl then (p.1, addCat p.2 cat) else p)
  else m ++ [(kwl, [cat])]

/-- `build_keyword_mappings`, restricted to the `keyword_to_category` map
(keyword to the set of categories containing it). -/
def build_keyword_mappings (cats : List GenAICat) : List (Str × List Str) :=
  cats.foldl
    (fun m e =>
      e.Keywords.foldl
        (fun m2 k => kwMapStep m2 (pyLower (pyStrip e.Category)) (pyLower (pyStrip k.keyword)))
        m)
    []

/-- One step of `build_keyword_mappings`' `category_to_keywords` map. -/
def catMapStep (m : List (Str × List Str)) (cat kwl : Str) : List (Str × List Str) :=
  if m.any (fun p => decide (p.1 = cat)) then
    m.map (fun p => if p.1 = cat then (p.1, addCat p.2 kwl) else p)
  else m ++ [(cat, [kwl])]

/-- `build_keyword_mappings`, restricted to the `category_to_keywords` map
(category to the set of its keywords; a category with no keyword entries
never receives a key, exactly as in the source's per-keyword loop). -/
def category_to_keywords (cats : List GenAICat) : List (Str × List Str) :=
  cats.foldl
    (fun m e =>
      e.Keywords.foldl
        (fun m2 k => catMapStep m2 (pyLower (pyStrip e.Category)) (pyLower (pyStrip k.keyword)))
        m)
    []

/-- The inner loop of `match_transactions`: scan the keyword map in order
and return the category set of the first non-empty keyword occurring in
`text` (`if kw and kw in text: ...; break`). -/
def firstMatch (k2c : List (Str × List Str)) (text : Str) : Option (List Str) :=
  match k2c with
  | [] => none
  | p :: rest => if p.1 ≠ [] ∧ p.1 <:+: text then some p.2 else firstMatch rest text

/-- `match_transactions`: first-hit matching over every transaction; returns
the accumulated matched category list and the unmatched transactions. -/
def match_transactions (txs : List Transaction) (k2c : List (Str × List Str)) :
    List Str × List Transaction :=
  txs.foldl
    (fun acc tx =>
      match firstMatch k2c (txText tx) with
      | some cs => (acc.1 ++ cs, acc.2)
      | none => (acc.1, acc.2 ++ [tx]))
    ([], [])

/-- Update `tx_to_category` for key `text` with the categories `cs`
(`tx_to_category[text].update(cats)` on a `defaultdict(set)`). -/
def updCats (m : List (Str × List Str)) (text : Str) (cs : List Str) :
    List (Str × List Str) :=
  if m.any (fun p => decide (p.1 = text)) then
    m.map (fun p => if p.1 = text then (p.1, cs.foldl addCat p.2) else p)
  else m ++ [(text, cs.foldl addCat [])]

/-- The `tx_to_category` map of `check_category_consistency`: for every
transaction, every non-empty keyword occurring in its text contributes
that keyword's categories to the entry keyed by the transaction text. -/
def tx_to_category (txs : List Transaction) (k2c : List (Str × List Str)) :
    List (Str × List Str) :=
  txs.foldl
    (fun m tx =>
      k2c.foldl
        (fun m2 p => if p.1 ≠ [] ∧ p.1 <:+: txText tx then updCats m2 (txText tx) p.2 else m2)
        m)
    []

/-- `check_category_consistency`: keep the transaction texts whose full
keyword scan accumulated more than one category. -/
def check_category_consistency (txs : List Transaction)
    (k2c : List (Str × List Str)) : List (Str × List Str) :=
  (tx_to_category txs k2c).filter (fun p => decide (1 < p.2.length))

/-- The `desired_categories` literal of `find_missing_categories`
(`gen_cat_eval.py`), including the source's spelling `"haushold"`. -/
def desired_categories : List Str :=
  ["haushold".data, "electricity".data, "maintenance".data, "rent".data, "salary".data,
   "bank loan".data, "taxes and fees".data, "insurance".data, "leisure".data,
   "creditcard".data, "medicine".data, "sport".data, "clothing".data, "atm".data,
   "other".data, "transportation".data]

/-- `find_missing_categories`: desired categories with no key in
`category_to_keywords` (a set difference; modelled as a filtered list). -/
def find_missing_categories (c2k : List (Str × List Str)) : List Str :=
  desired_categories.filter (fun c => decide (¬ c ∈ c2k.map Prod.fst))

/-- The coverage computed by `print_summary`:
`100 * (len(transactions) - len(unmatched)) / len(transactions)` guarded by
`if transactions else 0`. -/
def coverage (transactions unmatched : List Transaction) : ℚ :=
  if transactions = [] then 0
  else 100 * ((transactions.length : ℚ) - (unmatched.length : ℚ)) / (transactions.length : ℚ)

/-- `MAX_ITERATIONS` from `main_categorization.py`. -/
def MAX_ITERATIONS : ℕ := 5

/-- Why the orchestrator's `while` loop ended. -/
inductive Termination where
  | converged
  | stalled
  | exhausted
deriving DecidableEq, Repr

/-- `load_uncategorized_count`: the length of the per-round unmatched file's
JSON list, and `0` when the file does not exist (`none`). -/
def load_uncategorized_count (file : Option (List Transaction)) : ℕ :=
  match file with
  | none => 0
  | some data => data.length

/-- The orchestrator's `while iteration <= MAX_ITERATIONS` loop
(`main_categorization.main`), abstracted over the per-round unmatched
counts; returns the last round executed and the loop's termination kind
(`break` on count zero is "all transactions categorized", `break` on a
repeated count is "no improvement", falling off the loop is the `else`
branch "reached max iterations"). -/
def runFrom (counts : ℕ → ℕ) (iteration : ℕ) (previous : Option ℕ) : ℕ × Termination :=
  if iteration ≤ MAX_ITERATIONS then
    let count := counts iteration
    if count = 0 then (iteration, Termination.converged)
    else if previous = some count then (iteration, Termination.stalled)
    else runFrom counts (iteration + 1) (some count)
  else (iteration - 1, Termination.exhausted)
termination_by MAX_ITERATIONS + 1 - iteration
decreasing_by simp_wf; omega

/-- The orchestrator run started at round 1 with no previous count. -/
def orchestrate (counts : ℕ → ℕ) : ℕ × Termination := runFrom counts 1 none

/-- Fold one file's entries into the accumulated merged list, keeping only
entries not already present (`merge_json_files`' dedup on
`json.dumps(entry, sort_keys=True)`, i.e. content equality). -/
def dedupAppendFile {α : Type} [DecidableEq α] (acc : List α) (file : List α) : List α :=
  file.foldl (fun a e => if e ∈ a then a else a ++ [e]) acc

/-- `merge_json_files` over the (sorted-glob-ordered) list of file contents. -/
def merge_json_files {α : Type} [DecidableEq α] (files : List (List α)) : List α :=
  files.foldl dedupAppendFile []

/-- Append the keywords `kws` to a category's list, skipping any whose
keyword string is already present (`merge_category_json_files`' inner loop). -/
def addKeywords (cur : List KeywordEntry) (kws : List KeywordEntry) : List KeywordEntry :=
  kws.foldl
    (fun c kw => if kw.keyword ∈ c.map KeywordEntry.keyword then c else c ++ [kw]) cur

/-- Fold one categorisation entry into the merged category map
(`merge_category_json_files`' loop body; an entry with a falsy category
name is skipped by `if not cat: continue`). -/
def mergeCatEntry (m : List (Str × List KeywordEntry)) (entry : GenAICat) :
    List (Str × List KeywordEntry) :=
  if entry.Category = [] then m
  else if m.any (fun p => decide (p.1 = entry.Category)) then
    m.map (fun p => if p.1 = entry.Category then (p.1, addKeywords p.2 entry.Keywords) else p)
  else m ++ [(entry.Category, addKeywords [] entry.Keywords)]

/-- The `merged` dict of `merge_category_json_files` over all files. -/
def mergeCatMap (files : List (List GenAICat)) : List (Str × List KeywordEntry) :=
  files.foldl (fun m file => file.foldl mergeCatEntry m) []

/-- `merge_category_json_files`: merge all files' category entries, then emit
the categories sorted by name with each keyword list sorted by keyword. -/
def merge_category_json_files (files : List (List GenAICat)) : List GenAICat :=
  let m := mergeCatMap files
  (sortLe strLeB (m.map Prod.fst)).map (fun c =>
    ⟨c, sortLe kwEntryLe (((m.find? (fun p => decide (p.1 = c))).map Prod.snd).getD [])⟩)

/-- `MAX_ATTEMPTS` from `GenCat.py`. -/
def MAX_ATTEMPTS : ℕ := 3

/-- The observable outcome of one `GenCat.py` run: how many generation
attempts were made, the total `time.sleep` delay taken, what was written
to the output file, and whether the script returned normally (with the
valid response text) or raised `RuntimeError` (the hard failure). -/
structure AdapterResult where
  attempts : ℕ
  delayUnits : ℕ
  persistedOutput : Option Str
  outcome : Except Str Str
deriving Repr

/-- The `RuntimeError` message raised by `GenCat.py` when every attempt
produced invalid JSON. -/
def genCatFailureMsg : Str := "GenAI did not return valid JSON.".data

/-- The `for attempt in range(1, MAX_ATTEMPTS + 1)` loop of `GenCat.main`:
`isValid` abstracts `is_valid_json` (success of `json.loads`), and
`responses k` is the text returned by the generation call on attempt `k`.
A valid response breaks out and is written to the output file; an invalid
one sleeps 2 time units and retries; when the loop exhausts, the `else`
branch writes the last (malformed) response and raises. -/
def genCatAttempt (isValid : Str → Bool) (responses : ℕ → Str) (attempt delays : ℕ) :
    AdapterResult :=
  if attempt ≤ MAX_ATTEMPTS then
    let r := responses attempt
    if isValid r then ⟨attempt, delays, some r, Except.ok r⟩
    else genCatAttempt isValid responses (attempt + 1) (delays + 2)
  else ⟨MAX_ATTEMPTS, delays, some (responses MAX_ATTEMPTS), Except.error genCatFailureMsg⟩
termination_by MAX_ATTEMPTS + 1 - attempt
decreasing_by simp_wf; omega

/-- A whole `GenCat.py` run (the attempt loop started at attempt 1). -/
def genCatRun (isValid : Str → Bool) (responses : ℕ → Str) : AdapterResult :=
  genCatAttempt isValid responses 1 0

/-- The result of a finished subprocess as `subprocess.run` returns it. -/
structure CompletedProcess where
  stdout : Str
  stderr : Str
  returncode : ℤ
deriving DecidableEq, Repr

/-- `run_script` (`main_categorization.py`): print the child's stdout and,
when non-empty, its stderr with a warning prefix.  The return code is not
inspected and no exception is raised; the returned value is the list of
lines printed. -/
def run_script (result : CompletedProcess) : List Str :=
  [result.stdout] ++ (if result.stderr ≠ [] then ["Error: ".data ++ result.stderr] else [])

/-- The pipeline stages appearing in the orchestrator's loop body and tail. -/
inductive Stage where
  | genCat
  | cleaner
  | evaluator
  | merger
deriving DecidableEq, Repr

/-- One iteration of `main`'s loop body up to the progress check: the three
`run_script` calls are unconditional and sequential, whatever each child
process reported. -/
def roundStages (genCatProc cleanProc evalProc : CompletedProcess) :
    List (Stage × List Str) :=
  [(Stage.genCat, run_script genCatProc),
   (Stage.cleaner, run_script cleanProc),
   (Stage.evaluator, run_script evalProc)]

/-- What a whole `main` run produces, beyond per-round files: the last round,
the termination kind, and the merged artifacts computed after the loop. -/
structure PipelineResult where
  rounds : ℕ
  termination : Termination
  mergedUnmatched : List Transaction
  mergedCategories : List GenAICat
deriving Repr

/-- `main` (`main_categorization.py`): run the round loop, then always run
the merge step over the per-round files (`save_merged` /
`save_merged_categories` follow the loop unconditionally). -/
def mainPipeline (counts : ℕ → ℕ) (uncatFiles : List (List Transaction))
    (cleanedFiles : List (List GenAICat)) : PipelineResult :=
  let r := orchestrate counts
  ⟨r.1, r.2, merge_json_files uncatFiles, merge_category_json_files cleanedFiles⟩

/-!  Specification-side definitions, used to compare the code's behaviour
against the claims, plus concrete inputs for scenarios and
counterexamples. -/

/-- The (category, keyword-entry) pairs of a categorisation batch in
arrival order, with the category name stripped as the cleaner reads it. -/
def pairsOf (data : List GenAICat) : List (Str × KeywordEntry) :=
  data.flatMap (fun e => e.Keywords.map (fun k => (pyStrip e.Category, k)))

/-- The cleaner's conflict rule on one repeated sighting of a keyword, as a
function of the previously assigned category: a first sighting assigns the
new category; later sightings reassign only when the previous category is
exactly `"Other"` and the new one is not. -/
def conflictStep (prev : Option Str) (newCat : Str) : Option Str :=
  match prev with
  | none => some newCat
  | some p => if p = strOther ∧ newCat ≠ strOther then some newCat else some p

/-- Specification-side rendering of the cleaner's keyword assignment: fold
the conflict rule over the keyword's own sightings in arrival order. -/
def specAssignedCat (data : List GenAICat) (kw : Str) : Option Str :=
  ((pairsOf data).filter (fun p => decide (pyStrip p.2.keyword = kw))).foldl
    (fun a p => conflictStep a p.1) none

/-- The category assigned to keyword `kw` by an association list in the
cleaner's `keyword_to_category` shape. -/
def lookupCat (m : List (Str × Str × KeywordEntry)) (kw : Str) : Option Str :=
  (m.find? (fun p => decide (p.1 = kw))).map (fun p => p.2.1)

/-- The value stored under key `t` in an association list (first hit). -/
def valAt (m : List (Str × List Str)) (t : Str) : Option (List Str) :=
  (m.find? (fun p => decide (p.1 = t))).map Prod.snd

/-- The category set accumulated for one transaction text by the full
(non-short-circuiting) keyword scan of `check_category_consistency`. -/
def scanCats (k2c : List (Str × List Str)) (text : Str) : List Str :=
  k2c.foldl
    (fun acc p => if p.1 ≠ [] ∧ p.1 <:+: text then p.2.foldl addCat acc else acc) []

/-- Specification-side set of categories yielded by the full keyword scan
over the non-empty keywords occurring in `text`. -/
def matchedCatsSet (k2c : List (Str × List Str)) (text : Str) : Finset Str :=
  ((k2c.filter (fun p => decide (p.1 ≠ [] ∧ p.1 <:+: text))).flatMap Prod.snd).toFinset

/-- A category entry is absorbed by a merged map when merging it again can
change nothing: its name is falsy, or its name is a key and every pair
under that key already lists all of its keyword strings. -/
def catAbsorbed (m : List (Str × List KeywordEntry)) (entry : GenAICat) : Prop :=
  entry.Category = [] ∨
    (entry.Category ∈ m.map Prod.fst ∧
      ∀ p ∈ m, p.1 = entry.Category →
        ∀ kw ∈ entry.Keywords, kw.keyword ∈ p.2.map KeywordEntry.keyword)

/-- A keyword entry named `x` with no reasoning or confidence. -/
def xkw : KeywordEntry := ⟨"x".data, [], none⟩

/-- The spec's matching scenario transaction. -/
def acmeTx : Transaction := ⟨"Acme GmbH".data, "Miete".data, "April rent".data⟩

/-- The spec's matching scenario categorisation. -/
def rentCats : List GenAICat :=
  [⟨"Rent".data, [⟨"miete".data, "rent payment".data, some (9 / 10)⟩]⟩]

/-- A categorisation whose first keyword strips to the empty string. -/
def spaceKwCats : List GenAICat :=
  [⟨"A".data, [⟨" ".data, [], none⟩]⟩, ⟨"B".data, [xkw]⟩]

/-- A transaction whose text contains the keyword `x`. -/
def txX : Transaction := ⟨"x".data, [], []⟩

/-- A transaction whose text contains no non-empty keyword of `spaceKwCats`. -/
def txY : Transaction := ⟨"q".data, [], []⟩

/-- Unmatched-count sequence 12, 7, 7, ... (the spec's stall scenario). -/
def stallCounts : ℕ → ℕ := fun k => if k = 1 then 12 else 7

/-- Unmatched-count sequence 12, 3, 0, ... (the spec's convergence scenario). -/
def convergeCounts : ℕ → ℕ := fun k => if k = 1 then 12 else if k = 2 then 3 else 0

/-- A `GenCat.py` child process that died from the `RuntimeError` hard
failure: empty stdout, the traceback on stderr, exit status 1. -/
def failedGenCatProc : CompletedProcess :=
  ⟨[], "RuntimeError: GenAI did not return valid JSON.".data, 1⟩

/-- A child process that exited cleanly. -/
def okProc : CompletedProcess := ⟨"ok".data, [], 0⟩

/-!  Helper lemmas about the orchestrator loop. -/

/-- Unfolding `runFrom` when the round's count is zero. -/
theorem runFrom_converged (counts : ℕ → ℕ) (k : ℕ) (prev : Option ℕ)
    (hk : k ≤ MAX_ITERATIONS) (h0 : counts k = 0) :
    runFrom counts k prev = (k, Termination.converged) := by
  rw [runFrom]
  simp [hk, h0]

/-- Unfolding `runFrom` when the count repeats the previous round's count. -/
theorem runFrom_stalled (counts : ℕ → ℕ) (k : ℕ)
    (hk : k ≤ MAX_ITERATIONS) (h0 : counts k ≠ 0) :
    runFrom counts k (some (counts k)) = (k, Termination.stalled) := by
  rw [runFrom]
  simp [hk, h0]

/-- Unfolding `runFrom` when the loop advances to the next round. -/
theorem runFrom_advance (counts : ℕ → ℕ) (k : ℕ) (prev : Option ℕ)
    (hk : k ≤ MAX_ITERATIONS) (h0 : counts k ≠ 0) (hp : prev ≠ some (counts k)) :
    runFrom counts k prev = runFrom counts (k + 1) (some (counts k)) := by
  rw [runFrom]
  simp [hk, h0, hp]

/-- Unfolding `runFrom` past the round budget. -/
theorem runFrom_exhausted (counts : ℕ → ℕ) (k : ℕ) (prev : Option ℕ)
    (hk : ¬ k ≤ MAX_ITERATIONS) :
    runFrom counts k prev = (k - 1, Termination.exhausted) := by
  rw [runFrom]
  simp [hk]

/-- C5: the orchestrator transitions to `Converged` when a round's unmatched
count is 0, to `Stalled` when a round repeats the previous round's count,
and to `Exhausted` after round 5 (`MAX_ITERATIONS`) otherwise; the count
sequence 12, 7, 7 stops after round 3 in `Stalled`, the sequence 12, 3, 0
stops after round 3 in `Converged`, and every run still proceeds to the
merge step, whose outputs do not depend on the termination state. -/
theorem C5_orchestrator_transitions :
    (∀ (counts : ℕ → ℕ) (k : ℕ) (prev : Option ℕ), k ≤ MAX_ITERATIONS → counts k = 0 →
        runFrom counts k prev = (k, Termination.converged)) ∧
    (∀ (counts : ℕ → ℕ) (k : ℕ), k ≤ MAX_ITERATIONS → counts k ≠ 0 →
        runFrom counts k (some (counts k)) = (k, Termination.stalled)) ∧
    (∀ counts : ℕ → ℕ, (∀ k, 1 ≤ k → k ≤ MAX_ITERATIONS → counts k ≠ 0) →
        (∀ k, 2 ≤ k → k ≤ MAX_ITERATIONS → counts k ≠ counts (k - 1)) →
        orchestrate counts = (MAX_ITERATIONS, Termination.exhausted)) ∧
    orchestrate stallCounts = (3, Termination.stalled) ∧
    orchestrate convergeCounts = (3, Termination.converged) ∧
    (∀ counts uncatFiles cleanedFiles,
        (mainPipeline counts uncatFiles cleanedFiles).mergedUnmatched =
            merge_json_files uncatFiles ∧
        (mainPipeline counts uncatFiles cleanedFiles).mergedCategories =
            merge_category_json_files cleanedFiles) := by
  refine ⟨runFrom_converged, runFrom_stalled, ?_, ?_, ?_, fun _ _ _ => ⟨rfl, rfl⟩⟩
  · intro counts h1 h2
    have hne : ∀ j, 2 ≤ j → j ≤ MAX_ITERATIONS → some (counts (j - 1)) ≠ some (counts j) := by
      intro j hj2 hj5 h
      exact h2 j hj2 hj5 (Option.some_inj.mp h).symm
    have e1 : orchestrate counts = runFrom counts 2 (some (counts 1)) :=
      runFrom_advance counts 1 none (by decide) (h1 1 (by decide) (by decide)) (by simp)
    have e2 : runFrom counts 2 (some (counts 1)) = runFrom counts 3 (some (counts 2)) :=
      runFrom_advance counts 2 _ (by decide) (h1 2 (by decide) (by decide))
        (hne 2 (by decide) (by decide))
    have e3 : runFrom counts 3 (some (counts 2)) = runFrom counts 4 (some (counts 3)) :=
      runFrom_advance counts 3 _ (by decide) (h1 3 (by decide) (by decide))
        (hne 3 (by decide) (by decide))
    have e4 : runFrom counts 4 (some (counts 3)) = runFrom counts 5 (some (counts 4)) :=
      runFrom_advance counts 4 _ (by decide) (h1 4 (by decide) (by decide))
        (hne 4 (by decide) (by decide))
    have e5 : runFrom counts 5 (some (counts 4)) = runFrom counts 6 (some (counts 5)) :=
      runFrom_advance counts 5 _ (by decide) (h1 5 (by decide) (by decide))
        (hne 5 (by decide) (by decide))
    have e6 : runFrom counts 6 (some (counts 5)) = (5, Termination.exhausted) :=
      runFrom_exhausted counts 6 _ (by decide)
    rw [e1, e2, e3, e4, e5, e6]
    rfl
  · simp [orchestrate, runFrom, MAX_ITERATIONS, stallCounts]
  · simp [orchestrate, runFrom, MAX_ITERATIONS, convergeCounts]

/-- Witness for C5: the converged transition fires at a concrete input. -/
theorem C5_orchestrator_transitions_witness :
    runFrom (fun _ => 0) 1 none = (1, Termination.converged) :=
  C5_orchestrator_transitions.1 (fun _ => 0) 1 none (by decide) rfl

/-- C10: when the per-round unmatched file is absent, the loaded count is 0,
which is exactly the count of an empty residual file, and the orchestrator
terminates that round in the converged outcome. -/
theorem C10_missing_file_reads_as_converged :
    (∀ (files : ℕ → Option (List Transaction)) (k : ℕ) (prev : Option ℕ),
        k ≤ MAX_ITERATIONS → files k = none →
        runFrom (fun i => load_uncategorized_count (files i)) k prev =
          (k, Termination.converged)) ∧
    load_uncategorized_count none = 0 ∧
    load_uncategorized_count none = load_uncategorized_count (some []) := by
  refine ⟨?_, rfl, rfl⟩
  intro files k prev hk hf
  exact runFrom_converged _ k prev hk (by simp [hf, load_uncategorized_count])

/-- Witness for C10: a missing round-2 file converges at round 2. -/
theorem C10_missing_file_reads_as_converged_witness :
    runFrom (fun i => load_uncategorized_count ((fun _ => none) i)) 2 (some 7) =
      (2, Termination.converged) :=
  C10_missing_file_reads_as_converged.1 (fun _ => none) 2 (some 7) (by decide) rfl

/-- C6: coverage is `(|transactions| - |unmatched|) / |transactions| * 100`
(as an exact rational; the script prints it with two decimals), and on the
empty transaction list the matcher returns no unmatched transactions and
the coverage is defined to be 0 with no division performed. -/
theorem C6_coverage_formula :
    (∀ transactions unmatched : List Transaction, transactions ≠ [] →
        coverage transactions unmatched =
          ((transactions.length : ℚ) - (unmatched.length : ℚ)) /
            (transactions.length : ℚ) * 100) ∧
    (∀ k2c, (match_transactions [] k2c).2 = [] ∧
        coverage [] (match_transactions [] k2c).2 = 0) := by
  constructor
  · intro transactions unmatched h
    rw [coverage, if_neg h]
    ring
  · intro k2c
    exact ⟨rfl, rfl⟩

/-- Witness for C6: the formula evaluated on the one-transaction scenario. -/
theorem C6_coverage_formula_witness :
    coverage [acmeTx] [] =
      (([acmeTx].length : ℚ) - (([] : List Transaction).length : ℚ)) /
        ([acmeTx].length : ℚ) * 100 :=
  C6_coverage_formula.1 [acmeTx] [] (by simp)

/-!  Helper lemmas about the cross-round merge. -/

/-- Elements of the accumulator survive `dedupAppendFile`. -/
theorem mem_dedupAppendFile_left {α : Type} [DecidableEq α] {acc : List α}
    (l : List α) {a : α} (h : a ∈ acc) : a ∈ dedupAppendFile acc l := by
  induction l generalizing acc with
  | nil => exact h
  | cons x l ih =>
    rw [dedupAppendFile, List.foldl_cons]
    by_cases hx : x ∈ acc
    · rw [if_pos hx]
      exact ih h
    · rw [if_neg hx]
      exact ih (List.mem_append_left _ h)

/-- Elements of the incoming file appear in the result of `dedupAppendFile`. -/
theorem mem_dedupAppendFile_right {α : Type} [DecidableEq α] {acc l : List α}
    {a : α} (h : a ∈ l) : a ∈ dedupAppendFile acc l := by
  induction l generalizing acc with
  | nil => cases h
  | cons x l ih =>
    rw [dedupAppendFile, List.foldl_cons]
    rcases List.mem_cons.mp h with rfl | hmem
    · by_cases hx : a ∈ acc
      · rw [if_pos hx]
        exact mem_dedupAppendFile_left l hx
      · rw [if_neg hx]
        exact mem_dedupAppendFile_left l (List.mem_append_right _ (List.mem_singleton.mpr rfl))
    · by_cases hx : x ∈ acc
      · rw [if_pos hx]
        exact ih hmem
      · rw [if_neg hx]
        exact ih hmem

/-- A file whose entries are all already accumulated merges to a no-op. -/
theorem dedupAppendFile_absorb {α : Type} [DecidableEq α] {acc l : List α}
    (h : ∀ a ∈ l, a ∈ acc) : dedupAppendFile acc l = acc := by
  induction l with
  | nil => rfl
  | cons x l ih =>
    rw [dedupAppendFile, List.foldl_cons, if_pos (h x (List.mem_cons_self x l))]
    exact ih (fun a ha => h a (List.mem_cons_of_mem x ha))

/-- Keyword strings already present survive `addKeywords`. -/
theorem kwStrs_addKeywords_mono {cur : List KeywordEntry} (kws : List KeywordEntry)
    {a : Str} (h : a ∈ cur.map KeywordEntry.keyword) :
    a ∈ (addKeywords cur kws).map KeywordEntry.keyword := by
  induction kws generalizing cur with
  | nil => exact h
  | cons kw kws ih =>
    rw [addKeywords, List.foldl_cons]
    by_cases hx : kw.keyword ∈ cur.map KeywordEntry.keyword
    · rw [if_pos hx]
      exact ih h
    · rw [if_neg hx]
      refine ih ?_
      rw [List.map_append]
      exact List.mem_append_left _ h

/-- Every appended keyword's string appears after `addKeywords`. -/
theorem mem_kwStrs_addKeywords {cur kws : List KeywordEntry} {kw : KeywordEntry}
    (h : kw ∈ kws) : kw.keyword ∈ (addKeywords cur kws).map KeywordEntry.keyword := by
  induction kws generalizing cur with
  | nil => cases h
  | cons k kws ih =>
    rw [addKeywords, List.foldl_cons]
    rcases List.mem_cons.mp h with rfl | hmem
    · by_cases hx : kw.keyword ∈ cur.map KeywordEntry.keyword
      · rw [if_pos hx]
        exact kwStrs_addKeywords_mono kws hx
      · rw [if_neg hx]
        refine kwStrs_addKeywords_mono kws ?_
        rw [List.map_append]
        exact List.mem_append_right _ (by simp)
    · by_cases hx : k.keyword ∈ cur.map KeywordEntry.keyword
      · rw [if_pos hx]
        exact ih hmem
      · rw [if_neg hx]
        exact ih hmem

/-- Keywords whose strings are all present make `addKeywords` a no-op. -/
theorem addKeywords_absorb {cur kws : List KeywordEntry}
    (h : ∀ kw ∈ kws, kw.keyword ∈ cur.map KeywordEntry.keyword) :
    addKeywords cur kws = cur := by
  induction kws with
  | nil => rfl
  | cons kw kws ih =>
    rw [addKeywords, List.foldl_cons, if_pos (h kw (List.mem_cons_self kw kws))]
    exact ih (fun k hk => h k (List.mem_cons_of_mem kw hk))

/-- `any`-test of the merged map against key membership. -/
theorem anyKey_iff {β : Type} (m : List (Str × β)) (c : Str) :
    m.any (fun p => decide (p.1 = c)) = true ↔ c ∈ m.map Prod.fst := by
  simp only [List.any_eq_true, decide_eq_true_eq, List.mem_map]

/-- A pointwise-identical map is the identity. -/
theorem map_eq_self_of_mem {α : Type} {f : α → α} {l : List α}
    (h : ∀ a ∈ l, f a = a) : l.map f = l := by
  induction l with
  | nil => rfl
  | cons x l ih =>
    rw [List.map_cons, h x (List.mem_cons_self x l),
      ih (fun a ha => h a (List.mem_cons_of_mem x ha))]

/-- Merging an absorbed entry changes nothing (`merge_category_json_files`). -/
theorem mergeCatEntry_absorbed {m : List (Str × List KeywordEntry)} {e : GenAICat}
    (h : catAbsorbed m e) : mergeCatEntry m e = m := by
  by_cases h0 : e.Category = []
  · rw [mergeCatEntry, if_pos h0]
  · rcases h with h | ⟨hk, hv⟩
    · exact absurd h h0
    · rw [mergeCatEntry, if_neg h0, if_pos ((anyKey_iff m e.Category).mpr hk)]
      refine map_eq_self_of_mem ?_
      intro p hp
      by_cases hc : p.1 = e.Category
      · rw [if_pos hc, addKeywords_absorb (hv p hp hc), Prod.mk.eta]
      · rw [if_neg hc]

/-- A keyed in-place update does not change the key list. -/
theorem keys_map_upd {β : Type} (m : List (Str × β)) (c : Str) (g : Str × β → β) :
    (m.map (fun p => if p.1 = c then (p.1, g p) else p)).map Prod.fst = m.map Prod.fst := by
  rw [List.map_map]
  refine List.map_congr_left ?_
  intro p hp
  by_cases hc : p.1 = c
  · simp [hc]
  · simp [hc]

/-- After merging an entry, that entry is absorbed. -/
theorem catAbsorbed_mergeCatEntry_self (m : List (Str × List KeywordEntry))
    (e : GenAICat) : catAbsorbed (mergeCatEntry m e) e := by
  by_cases h0 : e.Category = []
  · exact Or.inl h0
  · right
    rw [mergeCatEntry, if_neg h0]
    by_cases hk : m.any (fun p => decide (p.1 = e.Category)) = true
    · rw [if_pos hk]
      constructor
      · rw [keys_map_upd]
        exact (anyKey_iff m e.Category).mp hk
      · intro p' hp' hfst kw hkw
        rcases List.mem_map.mp hp' with ⟨p, hp, rfl⟩
        by_cases hc : p.1 = e.Category
        · rw [if_pos hc]
          exact mem_kwStrs_addKeywords hkw
        · rw [if_neg hc] at hfst
          exact absurd hfst hc
    · rw [if_neg hk]
      constructor
      · rw [List.map_append]
        exact List.mem_append_right _ (by simp)
      · intro p hp hfst kw hkw
        rcases List.mem_append.mp hp with hp | hp
        · exact absurd ((anyKey_iff m e.Category).mpr
            (List.mem_map.mpr ⟨p, hp, hfst⟩)) hk
        · rw [List.mem_singleton.mp hp]
          exact mem_kwStrs_addKeywords hkw

/-- Absorption is preserved by merging further entries. -/
theorem catAbsorbed_mono {m : List (Str × List KeywordEntry)} {e : GenAICat}
    (e' : GenAICat) (h : catAbsorbed m e) : catAbsorbed (mergeCatEntry m e') e := by
  rcases h with h | ⟨hk, hv⟩
  · exact Or.inl h
  · right
    rw [mergeCatEntry]
    by_cases h0' : e'.Category = []
    · rw [if_pos h0']
      exact ⟨hk, hv⟩
    · rw [if_neg h0']
      by_cases hk' : m.any (fun p => decide (p.1 = e'.Category)) = true
      · rw [if_pos hk']
        constructor
        · rw [keys_map_upd]
          exact hk
        · intro p' hp' hfst kw hkw
          rcases List.mem_map.mp hp' with ⟨p, hp, rfl⟩
          by_cases hc : p.1 = e'.Category
          · rw [if_pos hc]
            rw [if_pos hc] at hfst
            exact kwStrs_addKeywords_mono _ (hv p hp hfst kw hkw)
          · rw [if_neg hc]
            rw [if_neg hc] at hfst
            exact hv p hp hfst kw hkw
      · rw [if_neg hk']
        constructor
        · rw [List.map_append]
          exact List.mem_append_left _ hk
        · intro p hp hfst kw hkw
          rcases List.mem_append.mp hp with hp | hp
          · exact hv p hp hfst kw hkw
          · rw [List.mem_singleton.mp hp] at hfst
            simp only at hfst
            exact absurd ((anyKey_iff m e'.Category).mpr (hfst ▸ hk)) hk'

/-- Folding a file of absorbed entries is a no-op. -/
theorem foldl_mergeCatEntry_absorbed {f : List GenAICat}
    {m : List (Str × List KeywordEntry)} (h : ∀ e ∈ f, catAbsorbed m e) :
    f.foldl mergeCatEntry m = m := by
  induction f with
  | nil => rfl
  | cons e f ih =>
    rw [List.foldl_cons, mergeCatEntry_absorbed (h e (List.mem_cons_self e f))]
    exact ih (fun x hx => h x (List.mem_cons_of_mem e hx))

/-- Absorption is preserved by folding a whole file. -/
theorem catAbsorbed_foldl {m : List (Str × List KeywordEntry)} {e : GenAICat}
    (f : List GenAICat) (h : catAbsorbed m e) :
    catAbsorbed (f.foldl mergeCatEntry m) e := by
  induction f generalizing m with
  | nil => exact h
  | cons e' f ih =>
    rw [List.foldl_cons]
    exact ih (catAbsorbed_mono e' h)

/-- Every entry of a folded file ends up absorbed by the result. -/
theorem catAbsorbed_of_mem_foldl {f : List GenAICat}
    {m : List (Str × List KeywordEntry)} {e : GenAICat} (h : e ∈ f) :
    catAbsorbed (f.foldl mergeCatEntry m) e := by
  induction f generalizing m with
  | nil => cases h
  | cons e0 f ih =>
    rw [List.foldl_cons]
    rcases List.mem_cons.mp h with rfl | hmem
    · exact catAbsorbed_foldl f (catAbsorbed_mergeCatEntry_self m e)
    · exact ih hmem

/-- C9: merging a round's results together with an identical duplicate of
itself yields the same merged output as merging it once, both for the
transaction-level merge and for the category-level merge. -/
theorem C9_merge_idempotent :
    (∀ (α : Type) (inst : DecidableEq α) (l : List α),
        @merge_json_files α inst [l, l] = @merge_json_files α inst [l]) ∧
    (∀ f : List GenAICat, merge_category_json_files [f, f] = merge_category_json_files [f]) := by
  constructor
  · intro α inst l
    show dedupAppendFile (dedupAppendFile [] l) l = dedupAppendFile [] l
    exact dedupAppendFile_absorb (fun a ha => mem_dedupAppendFile_right ha)
  · intro f
    have hmap : mergeCatMap [f, f] = mergeCatMap [f] := by
      show f.foldl mergeCatEntry (f.foldl mergeCatEntry []) = f.foldl mergeCatEntry []
      exact foldl_mergeCatEntry_absorbed (fun e he => catAbsorbed_of_mem_foldl he)
    rw [merge_category_json_files, merge_category_json_files, hmap]

/-- C8: evaluation of the code at the failing input.  The categorization
contains the correctly spelled category `Household` (with a keyword), yet
`find_missing_categories` still reports every entry of its taxonomy as
missing: the code's taxonomy literal contains the misspelling
`"haushold"` and not `"household"`, so the spec's required-taxonomy entry
`household` can never be satisfied or reported. -/
theorem C8_taxonomy_misspelled :
    find_missing_categories (category_to_keywords [⟨"Household".data, [xkw]⟩]) =
      desired_categories ∧
    "haushold".data ∈ desired_categories ∧
    ¬ "household".data ∈ desired_categories := by
  exact ⟨by decide, by decide, by decide⟩

/-!  Helper lemmas about the cleaner's conflict resolution. -/

/-- Flattening the cleaner's nested loops into one fold over the
`(category, keyword)` pairs in arrival order. -/
theorem foldl_clean_pairs (data : List GenAICat) (m : List (Str × Str × KeywordEntry)) :
    data.foldl
        (fun m2 entry =>
          entry.Keywords.foldl (fun m3 k => cleanAssignStep m3 (pyStrip entry.Category) k) m2)
        m =
      (pairsOf data).foldl (fun m2 p => cleanAssignStep m2 p.1 p.2) m := by
  induction data generalizing m with
  | nil => rfl
  | cons e data ih =>
    rw [List.foldl_cons, pairsOf, List.flatMap_cons, List.foldl_append, ih,
      List.foldl_map]
    rfl

/-- `keyword_to_category` as a single fold over the arrival-ordered pairs. -/
theorem keyword_to_category_eq_pairs (data : List GenAICat) :
    keyword_to_category data =
      (pairsOf data).foldl (fun m2 p => cleanAssignStep m2 p.1 p.2) [] :=
  foldl_clean_pairs data []

/-- How one cleaner step changes the category assigned to a fixed keyword:
other keywords' sightings leave it unchanged, and a sighting of the
keyword itself applies the conflict rule. -/
theorem lookupCat_cleanAssignStep (m : List (Str × Str × KeywordEntry)) (cat : Str)
    (k : KeywordEntry) (kw : Str) :
    lookupCat (cleanAssignStep m cat k) kw =
      if pyStrip k.keyword = kw then conflictStep (lookupCat m kw) cat
      else lookupCat m kw := by
  cases hfind : m.find? (fun p => decide (p.1 = pyStrip k.keyword)) with
  | none =>
    have hstep : cleanAssignStep m cat k =
        m ++ [(pyStrip k.keyword, cat,
          KeywordEntry.mk (pyStrip k.keyword) k.reasoning k.confidence)] := by
      simp only [cleanAssignStep, hfind]
    rw [hstep]
    by_cases hkw : pyStrip k.keyword = kw
    · subst hkw
      rw [if_pos rfl, lookupCat, lookupCat, List.find?_append, hfind]
      simp [conflictStep, List.find?]
    · rw [if_neg hkw, lookupCat, lookupCat, List.find?_append]
      have h1 : List.find? (fun p => decide (p.1 = kw))
          [(pyStrip k.keyword, cat,
            KeywordEntry.mk (pyStrip k.keyword) k.reasoning k.confidence)] = none := by
        simp [List.find?, hkw]
      rw [h1, Option.or_none]
  | some prev =>
    have hprev : prev.1 = pyStrip k.keyword := by
      have h := List.find?_some hfind
      exact of_decide_eq_true h
    by_cases hcond : prev.2.1 = strOther ∧ cat ≠ strOther
    · have hstep : cleanAssignStep m cat k =
          m.map (fun p => if p.1 = pyStrip k.keyword then
            (p.1, cat, KeywordEntry.mk (pyStrip k.keyword) k.reasoning k.confidence)
          else p) := by
        simp only [cleanAssignStep, hfind]
        rw [if_pos hcond]
      rw [hstep, lookupCat, List.find?_map]
      have hfeq : ((fun p : Str × Str × KeywordEntry => decide (p.1 = kw)) ∘
          (fun p : Str × Str × KeywordEntry => if p.1 = pyStrip k.keyword then
            (p.1, cat, KeywordEntry.mk (pyStrip k.keyword) k.reasoning k.confidence)
          else p)) = fun p : Str × Str × KeywordEntry => decide (p.1 = kw) := by
        funext p
        by_cases hc : p.1 = pyStrip k.keyword
        · simp [hc]
        · simp [hc]
      rw [hfeq]
      by_cases hkw : pyStrip k.keyword = kw
      · subst hkw
        rw [if_pos rfl, hfind, lookupCat, hfind]
        simp [hprev, conflictStep, hcond]
      · rw [if_neg hkw, lookupCat]
        cases hfind2 : m.find? (fun p => decide (p.1 = kw)) with
        | none => simp
        | some p0 =>
          have hp0 : p0.1 = kw := by
            have h := List.find?_some hfind2
            exact of_decide_eq_true h
          have hne : ¬ p0.1 = pyStrip k.keyword := by
            rw [hp0]
            intro h
            exact hkw h.symm
          simp [hne]
    · have hstep : cleanAssignStep m cat k = m := by
        simp only [cleanAssignStep, hfind]
        rw [if_neg hcond]
      rw [hstep]
      by_cases hkw : pyStrip k.keyword = kw
      · subst hkw
        rw [if_pos rfl, lookupCat, hfind]
        simp [conflictStep, hcond]
      · rw [if_neg hkw]

/-- The cleaner's assignment for a fixed keyword over a pair list is the
fold of the conflict rule over that keyword's own sightings. -/
theorem lookupCat_foldl_pairs (ps : List (Str × KeywordEntry))
    (m : List (Str × Str × KeywordEntry)) (kw : Str) :
    lookupCat (ps.foldl (fun m2 p => cleanAssignStep m2 p.1 p.2) m) kw =
      (ps.filter (fun p => decide (pyStrip p.2.keyword = kw))).foldl
        (fun a p => conflictStep a p.1) (lookupCat m kw) := by
  induction ps generalizing m with
  | nil => rfl
  | cons p ps ih =>
    rw [List.foldl_cons, ih, lookupCat_cleanAssignStep]
    by_cases hkw : pyStrip p.2.keyword = kw
    · rw [if_pos hkw, List.filter_cons_of_pos (by simpa using hkw), List.foldl_cons]
    · rw [if_neg hkw, List.filter_cons_of_neg (by simpa using hkw)]

/-- C2 (amended): duplicate keywords are resolved in arrival order by the
rule "first assignment wins, except that a previous assignment that is
exactly the string `Other` (compared case-sensitively) is overridden by a
later non-`Other` category"; with the exact spelling `Other`, a keyword
seen under `Other` then `Rent` ends up in `Rent`, and one seen under
`Rent` then `Other` stays in `Rent`. -/
theorem C2_conflict_rule_case_sensitive :
    (∀ (data : List GenAICat) (kw : Str),
        lookupCat (keyword_to_category data) kw = specAssignedCat data kw) ∧
    clean_ai_categorisation [⟨"Other".data, [xkw]⟩, ⟨"Rent".data, [xkw]⟩] =
      [⟨"Rent".data, [xkw]⟩] ∧
    clean_ai_categorisation [⟨"Rent".data, [xkw]⟩, ⟨"Other".data, [xkw]⟩] =
      [⟨"Rent".data, [xkw]⟩] := by
  refine ⟨?_, by decide, by decide⟩
  intro data kw
  rw [keyword_to_category_eq_pairs, lookupCat_foldl_pairs]
  rfl

/-- C2 counterexample to the claim as stated: a keyword first assigned to
the category spelled `other` (lowercase) and then seen under `Rent` is
not reassigned, because the code compares the previous category with the
literal `"Other"` case-sensitively. -/
theorem C2_counterexample_lowercase_other :
    clean_ai_categorisation [⟨"other".data, [xkw]⟩, ⟨"Rent".data, [xkw]⟩] =
      [⟨"other".data, [xkw]⟩] ∧
    ¬ "Rent".data ∈
      (clean_ai_categorisation [⟨"other".data, [xkw]⟩, ⟨"Rent".data, [xkw]⟩]).map
        GenAICat.Category := by
  exact ⟨by decide, by decide⟩

/-!  Helper lemmas about sorting and the no-duplicate-keyword invariant. -/

/-- `insertLe` permutes to consing. -/
theorem insertLe_perm {α : Type} (le : α → α → Bool) (x : α) (l : List α) :
    (insertLe le x l).Perm (x :: l) := by
  induction l with
  | nil => exact List.Perm.refl _
  | cons y ys ih =>
    rw [insertLe]
    by_cases h : le x y = true
    · rw [if_pos h]
    · rw [if_neg h]
      exact List.Perm.trans (List.Perm.cons y ih) (List.Perm.swap x y ys)

/-- `sortLe` is a permutation. -/
theorem sortLe_perm {α : Type} (le : α → α → Bool) (l : List α) :
    (sortLe le l).Perm l := by
  induction l with
  | nil => exact List.Perm.refl _
  | cons x xs ih =>
    rw [sortLe]
    exact List.Perm.trans (insertLe_perm le x (sortLe le xs)) (List.Perm.cons x ih)

/-- Membership is invariant under `sortLe`. -/
theorem mem_sortLe {α : Type} {le : α → α → Bool} {x : α} {l : List α} :
    x ∈ sortLe le l ↔ x ∈ l :=
  (sortLe_perm le l).mem_iff

/-- The cleaner's step keeps the keyword keys duplicate-free and keeps each
stored entry's keyword equal to its key. -/
theorem cleanAssignStep_inv {m : List (Str × Str × KeywordEntry)} (cat : Str)
    (k : KeywordEntry) (h1 : (m.map Prod.fst).Nodup)
    (h2 : ∀ p ∈ m, p.2.2.keyword = p.1) :
    ((cleanAssignStep m cat k).map Prod.fst).Nodup ∧
      ∀ p ∈ cleanAssignStep m cat k, p.2.2.keyword = p.1 := by
  cases hfind : m.find? (fun p => decide (p.1 = pyStrip k.keyword)) with
  | none =>
    have hstep : cleanAssignStep m cat k =
        m ++ [(pyStrip k.keyword, cat,
          KeywordEntry.mk (pyStrip k.keyword) k.reasoning k.confidence)] := by
      simp only [cleanAssignStep, hfind]
    rw [hstep]
    have hnk : ¬ pyStrip k.keyword ∈ m.map Prod.fst := by
      intro hmem
      rcases List.mem_map.mp hmem with ⟨p, hp, hfst⟩
      have := List.find?_eq_none.mp hfind p hp
      simp [hfst] at this
    constructor
    · rw [List.map_append]
      simp [List.nodup_append, h1, hnk]
    · intro p hp
      rcases List.mem_append.mp hp with hp | hp
      · exact h2 p hp
      · rw [List.mem_singleton.mp hp]
  | some prev =>
    by_cases hcond : prev.2.1 = strOther ∧ cat ≠ strOther
    · have hstep : cleanAssignStep m cat k =
          m.map (fun p => if p.1 = pyStrip k.keyword then
            (p.1, cat, KeywordEntry.mk (pyStrip k.keyword) k.reasoning k.confidence)
          else p) := by
        simp only [cleanAssignStep, hfind]
        rw [if_pos hcond]
      rw [hstep]
      constructor
      · rw [keys_map_upd]
        exact h1
      · intro p' hp'
        rcases List.mem_map.mp hp' with ⟨p, hp, rfl⟩
        by_cases hc : p.1 = pyStrip k.keyword
        · rw [if_pos hc]
          simp [hc]
        · rw [if_neg hc]
          exact h2 p hp
    · have hstep : cleanAssignStep m cat k = m := by
        simp only [cleanAssignStep, hfind]
        rw [if_neg hcond]
      rw [hstep]
      exact ⟨h1, h2⟩

/-- The cleaner's finished keyword map has duplicate-free keys, and every
stored entry's keyword equals its key. -/
theorem keyword_to_category_inv (data : List GenAICat) :
    ((keyword_to_category data).map Prod.fst).Nodup ∧
      ∀ p ∈ keyword_to_category data, p.2.2.keyword = p.1 := by
  rw [keyword_to_category_eq_pairs]
  generalize hps : pairsOf data = ps
  clear hps
  have h : ∀ (ps : List (Str × KeywordEntry)) (m : List (Str × Str × KeywordEntry)),
      (m.map Prod.fst).Nodup → (∀ p ∈ m, p.2.2.keyword = p.1) →
      (((ps.foldl (fun m2 p => cleanAssignStep m2 p.1 p.2) m).map Prod.fst).Nodup ∧
        ∀ p ∈ ps.foldl (fun m2 p => cleanAssignStep m2 p.1 p.2) m, p.2.2.keyword = p.1) := by
    intro ps
    induction ps with
    | nil => exact fun m hm1 hm2 => ⟨hm1, hm2⟩
    | cons q ps ih =>
      intro m hm1 hm2
      rw [List.foldl_cons]
      have hstep := cleanAssignStep_inv q.1 q.2 hm1 hm2
      exact ih _ hstep.1 hstep.2
  exact h ps [] (by simp) (by simp)

/-- `addKeywords` preserves duplicate-freeness of the keyword strings. -/
theorem addKeywords_nodup {cur : List KeywordEntry} (kws : List KeywordEntry)
    (h : (cur.map KeywordEntry.keyword).Nodup) :
    ((addKeywords cur kws).map KeywordEntry.keyword).Nodup := by
  induction kws generalizing cur with
  | nil => exact h
  | cons kw kws ih =>
    rw [addKeywords, List.foldl_cons]
    by_cases hx : kw.keyword ∈ cur.map KeywordEntry.keyword
    · rw [if_pos hx]
      exact ih h
    · rw [if_neg hx]
      refine ih ?_
      rw [List.map_append]
      simp [List.nodup_append, h, hx]

/-- Every value list stored in the merged category map is duplicate-free. -/
theorem mergeCatMap_values_nodup (files : List (List GenAICat)) :
    ∀ p ∈ mergeCatMap files, (p.2.map KeywordEntry.keyword).Nodup := by
  have hinner : ∀ (es : List GenAICat) (m2 : List (Str × List KeywordEntry)),
      (∀ p ∈ m2, (p.2.map KeywordEntry.keyword).Nodup) →
      ∀ p ∈ es.foldl mergeCatEntry m2, (p.2.map KeywordEntry.keyword).Nodup := by
    intro es
    induction es with
    | nil => exact fun m2 hm2 => hm2
    | cons e es ihe =>
      intro m2 hm2
      rw [List.foldl_cons]
      refine ihe _ ?_
      intro p hp
      rw [mergeCatEntry] at hp
      by_cases h0 : e.Category = []
      · rw [if_pos h0] at hp
        exact hm2 p hp
      · rw [if_neg h0] at hp
        by_cases hk : m2.any (fun q => decide (q.1 = e.Category)) = true
        · rw [if_pos hk] at hp
          rcases List.mem_map.mp hp with ⟨q, hq, rfl⟩
          by_cases hc : q.1 = e.Category
          · rw [if_pos hc]
            exact addKeywords_nodup e.Keywords (hm2 q hq)
          · rw [if_neg hc]
            exact hm2 q hq
        · rw [if_neg hk] at hp
          rcases List.mem_append.mp hp with hp | hp
          · exact hm2 p hp
          · rw [List.mem_singleton.mp hp]
            exact addKeywords_nodup e.Keywords (by simp)
  have h : ∀ (fs : List (List GenAICat)) (m : List (Str × List KeywordEntry)),
      (∀ p ∈ m, (p.2.map KeywordEntry.keyword).Nodup) →
      ∀ p ∈ fs.foldl (fun m2 file => file.foldl mergeCatEntry m2) m,
        (p.2.map KeywordEntry.keyword).Nodup := by
    intro fs
    induction fs with
    | nil => exact fun m hm => hm
    | cons f fs ihf =>
      intro m hm
      rw [List.foldl_cons]
      exact ihf _ (hinner f m hm)
  exact h files [] (by simp)

/-- Each category of the merged output has duplicate-free keyword strings. -/
theorem merge_category_keywords_nodup (files : List (List GenAICat)) :
    ∀ c ∈ merge_category_json_files files,
      (c.Keywords.map KeywordEntry.keyword).Nodup := by
  intro c hc
  simp only [merge_category_json_files] at hc
  rcases List.mem_map.mp hc with ⟨name, hname, rfl⟩
  have hperm := ((sortLe_perm kwEntryLe
    ((((mergeCatMap files).find? (fun p => decide (p.1 = name))).map Prod.snd).getD [])).map
      KeywordEntry.keyword)
  refine hperm.nodup_iff.mpr ?_
  cases hfind : (mergeCatMap files).find? (fun p => decide (p.1 = name)) with
  | none => simp
  | some p =>
    have hp := List.mem_of_find?_eq_some hfind
    simpa using mergeCatMap_values_nodup files p hp

/-- Each keyword appears in exactly one category (and once) after cleaning. -/
theorem clean_keyword_unique (data : List GenAICat) :
    ∀ c1 ∈ clean_ai_categorisation data, ∀ c2 ∈ clean_ai_categorisation data,
      ∀ k1 ∈ c1.Keywords, ∀ k2 ∈ c2.Keywords,
        k1.keyword = k2.keyword → c1 = c2 ∧ k1 = k2 := by
  intro c1 hc1 c2 hc2 k1 hk1 k2 hk2 heq
  obtain ⟨hnd, hkey⟩ := keyword_to_category_inv data
  simp only [clean_ai_categorisation] at hc1 hc2
  rcases List.mem_map.mp hc1 with ⟨n1, hn1, rfl⟩
  rcases List.mem_map.mp hc2 with ⟨n2, hn2, rfl⟩
  have hk1m := mem_sortLe.mp hk1
  have hk2m := mem_sortLe.mp hk2
  rcases List.mem_map.mp hk1m with ⟨p1, hp1mem, rfl⟩
  rcases List.mem_map.mp hk2m with ⟨p2, hp2mem, rfl⟩
  have hp1 := List.mem_filter.mp hp1mem
  have hp2 := List.mem_filter.mp hp2mem
  have h1k : p1.2.2.keyword = p1.1 := hkey p1 hp1.1
  have h2k : p2.2.2.keyword = p2.1 := hkey p2 hp2.1
  have hfst : p1.1 = p2.1 := by
    rw [← h1k, ← h2k, heq]
  have hpe : p1 = p2 := List.inj_on_of_nodup_map hnd hp1.1 hp2.1 hfst
  have hn1e : p1.2.1 = n1 := of_decide_eq_true hp1.2
  have hn2e : p2.2.1 = n2 := of_decide_eq_true hp2.2
  have hn12 : n1 = n2 := by
    rw [← hn1e, ← hn2e, hpe]
  constructor
  · rw [hn12]
  · rw [hpe]

/-- C3 counterexample to the claim as stated: two rounds' cleaned outputs can
assign the same keyword to different categories, and the cross-round
category merge keeps both assignments, because it deduplicates keywords
only within each category, not across categories. -/
theorem C3_counterexample_merged_duplicate_keyword :
    (⟨"Household".data, [xkw]⟩ : GenAICat) ∈
        merge_category_json_files [[⟨"Rent".data, [xkw]⟩], [⟨"Household".data, [xkw]⟩]] ∧
    (⟨"Rent".data, [xkw]⟩ : GenAICat) ∈
        merge_category_json_files [[⟨"Rent".data, [xkw]⟩], [⟨"Household".data, [xkw]⟩]] ∧
    "Household".data ≠ "Rent".data :=
  ⟨by decide, by decide, by decide⟩

/-- C3 (amended): in every `clean()` output each keyword appears in exactly
one category (and exactly once); the cross-round category merge only
guarantees that each single category's keyword list is duplicate-free —
it does not apply the cleaner's cross-category conflict rule, so a
keyword may appear under several categories in the merged output. -/
theorem C3_keyword_uniqueness :
    (∀ data : List GenAICat, ∀ c1 ∈ clean_ai_categorisation data,
        ∀ c2 ∈ clean_ai_categorisation data, ∀ k1 ∈ c1.Keywords, ∀ k2 ∈ c2.Keywords,
          k1.keyword = k2.keyword → c1 = c2 ∧ k1 = k2) ∧
    (∀ files : List (List GenAICat), ∀ c ∈ merge_category_json_files files,
        (c.Keywords.map KeywordEntry.keyword).Nodup) :=
  ⟨clean_keyword_unique, merge_category_keywords_nodup⟩

/-- Witness for C3: the uniqueness theorem applied to a concrete cleaning. -/
theorem C3_keyword_uniqueness_witness :
    (⟨"Rent".data, [xkw]⟩ : GenAICat) = ⟨"Rent".data, [xkw]⟩ ∧ xkw = xkw :=
  C3_keyword_uniqueness.1 [⟨"Rent".data, [xkw]⟩] ⟨"Rent".data, [xkw]⟩ (by decide)
    ⟨"Rent".data, [xkw]⟩ (by decide) xkw (by decide) xkw (by decide) rfl

/-!  Helper lemmas about the evaluator's first-hit matcher. -/

/-- `firstMatch` returns the categories of the first map pair whose keyword
is non-empty and occurs in the text. -/
theorem firstMatch_eq_find? (k2c : List (Str × List Str)) (text : Str) :
    firstMatch k2c text =
      (k2c.find? (fun p => decide (p.1 ≠ [] ∧ p.1 <:+: text))).map Prod.snd := by
  induction k2c with
  | nil => rfl
  | cons p rest ih =>
    rw [firstMatch]
    by_cases h : p.1 ≠ [] ∧ p.1 <:+: text
    · rw [if_pos h, List.find?_cons_of_pos _ (by simpa using h)]
      rfl
    · rw [if_neg h, ih, List.find?_cons_of_neg _ (by simpa using h)]

/-- `firstMatch` finds nothing exactly when no non-empty keyword occurs. -/
theorem firstMatch_eq_none_iff (k2c : List (Str × List Str)) (text : Str) :
    firstMatch k2c text = none ↔ ∀ p ∈ k2c, p.1 ≠ [] → ¬ p.1 <:+: text := by
  rw [firstMatch_eq_find?]
  simp [List.find?_eq_none, not_and]

/-- `match_transactions` in closed form: matched categories concatenate each
transaction's first hit, and the unmatched output filters the no-hit
transactions in order. -/
theorem match_transactions_eq (txs : List Transaction) (k2c : List (Str × List Str)) :
    match_transactions txs k2c =
      (txs.flatMap (fun tx => (firstMatch k2c (txText tx)).getD []),
       txs.filter (fun tx => (firstMatch k2c (txText tx)).isNone)) := by
  have h : ∀ (l : List Transaction) (acc : List Str × List Transaction),
      l.foldl
          (fun acc tx =>
            match firstMatch k2c (txText tx) with
            | some cs => (acc.1 ++ cs, acc.2)
            | none => (acc.1, acc.2 ++ [tx]))
          acc =
        (acc.1 ++ l.flatMap (fun tx => (firstMatch k2c (txText tx)).getD []),
         acc.2 ++ l.filter (fun tx => (firstMatch k2c (txText tx)).isNone)) := by
    intro l
    induction l with
    | nil => simp
    | cons tx l ih =>
      intro acc
      rw [List.foldl_cons]
      cases hm : firstMatch k2c (txText tx) with
      | some cs =>
        simp only [hm]
        rw [ih]
        simp [hm, List.append_assoc]
      | none =>
        simp only [hm]
        rw [ih]
        simp [hm, List.append_assoc]
  rw [match_transactions, h]
  simp

/-- Membership in the unmatched output of the matcher. -/
theorem mem_unmatched_iff (txs : List Transaction) (k2c : List (Str × List Str))
    (tx : Transaction) :
    tx ∈ (match_transactions txs k2c).2 ↔
      tx ∈ txs ∧ ∀ p ∈ k2c, p.1 ≠ [] → ¬ p.1 <:+: txText tx := by
  rw [match_transactions_eq]
  simp [List.mem_filter, Option.isNone_iff_eq_none, firstMatch_eq_none_iff]

/-- C4 counterexample to the claim as stated: a keyword entry whose keyword
strips to the empty string is skipped by the matcher (`if kw and ...`),
so a transaction can be unmatched even though that (empty) keyword occurs
as a substring of its text. -/
theorem C4_counterexample_empty_keyword :
    build_keyword_mappings [⟨"A".data, [⟨" ".data, [], none⟩]⟩] = [([], ["a".data])] ∧
    ([] : Str) <:+: txText txY ∧
    match_transactions [txY] (build_keyword_mappings [⟨"A".data, [⟨" ".data, [], none⟩]⟩]) =
      ([], [txY]) :=
  ⟨by decide, by decide, by decide⟩

/-- C4 (amended): the matcher lowercases and concatenates the three fields,
scans the keyword index in insertion order and takes the categories of the
first non-empty keyword occurring as a substring (first-hit-wins); a
transaction is unmatched exactly when no non-empty keyword occurs in its
text; the Acme/Miete scenario yields 1 matched, 0 unmatched, coverage 100. -/
theorem C4_first_hit_matching :
    (∀ (k2c : List (Str × List Str)) (text : Str),
        firstMatch k2c text =
          (k2c.find? (fun p => decide (p.1 ≠ [] ∧ p.1 <:+: text))).map Prod.snd) ∧
    (∀ (txs : List Transaction) (k2c : List (Str × List Str)),
        match_transactions txs k2c =
          (txs.flatMap (fun tx => (firstMatch k2c (txText tx)).getD []),
           txs.filter (fun tx => (firstMatch k2c (txText tx)).isNone))) ∧
    (∀ (txs : List Transaction) (k2c : List (Str × List Str)) (tx : Transaction),
        tx ∈ (match_transactions txs k2c).2 ↔
          tx ∈ txs ∧ ∀ p ∈ k2c, p.1 ≠ [] → ¬ p.1 <:+: txText tx) ∧
    match_transactions [acmeTx] (build_keyword_mappings rentCats) = (["rent".data], []) ∧
    coverage [acmeTx] (match_transactions [acmeTx] (build_keyword_mappings rentCats)).2 = 100 := by
  refine ⟨firstMatch_eq_find?, match_transactions_eq, mem_unmatched_iff, by decide, ?_⟩
  have h2 : (match_transactions [acmeTx] (build_keyword_mappings rentCats)).2 = [] := by
    decide
  rw [h2, coverage, if_neg (by simp)]
  norm_num

/-!  Helper lemmas about the consistency checker's set accumulation. -/

/-- Membership in a set-add. -/
theorem mem_addCat_iff {l : List Str} {c a : Str} :
    a ∈ addCat l c ↔ a ∈ l ∨ a = c := by
  rw [addCat]
  by_cases h : c ∈ l
  · rw [if_pos h]
    constructor
    · exact Or.inl
    · rintro (ha | rfl)
      · exact ha
      · exact h
  · rw [if_neg h]
    simp [List.mem_append]

/-- Membership after set-adding a whole list. -/
theorem mem_foldl_addCat_iff {cs acc : List Str} {a : Str} :
    a ∈ cs.foldl addCat acc ↔ a ∈ acc ∨ a ∈ cs := by
  induction cs generalizing acc with
  | nil => simp
  | cons c cs ih =>
    rw [List.foldl_cons, ih, mem_addCat_iff]
    constructor
    · rintro ((ha | rfl) | hc)
      · exact Or.inl ha
      · simp
      · simp [hc]
    · rintro (ha | hc)
      · exact Or.inl (Or.inl ha)
      · rcases List.mem_cons.mp hc with rfl | hc
        · exact Or.inl (Or.inr rfl)
        · exact Or.inr hc

/-- `addCat` keeps the accumulated set duplicate-free. -/
theorem addCat_nodup {l : List Str} {c : Str} (h : l.Nodup) : (addCat l c).Nodup := by
  rw [addCat]
  by_cases hc : c ∈ l
  · rw [if_pos hc]
    exact h
  · rw [if_neg hc]
    simp [List.nodup_append, h, hc]

/-- Set-adding a list keeps the accumulated set duplicate-free. -/
theorem foldl_addCat_nodup {cs acc : List Str} (h : acc.Nodup) :
    (cs.foldl addCat acc).Nodup := by
  induction cs generalizing acc with
  | nil => exact h
  | cons c cs ih =>
    rw [List.foldl_cons]
    exact ih (addCat_nodup h)

/-- Elements already accumulated make set-adding a no-op. -/
theorem foldl_addCat_absorb {cs acc : List Str} (h : ∀ c ∈ cs, c ∈ acc) :
    cs.foldl addCat acc = acc := by
  induction cs with
  | nil => rfl
  | cons c cs ih =>
    rw [List.foldl_cons, addCat, if_pos (h c (List.mem_cons_self c cs))]
    exact ih (fun x hx => h x (List.mem_cons_of_mem c hx))

/-- Membership in the full-scan fold from an arbitrary seed. -/
theorem mem_scanFold_iff (k2c : List (Str × List Str)) (text : Str) (acc : List Str)
    (a : Str) :
    (a ∈ k2c.foldl
        (fun acc2 p => if p.1 ≠ [] ∧ p.1 <:+: text then p.2.foldl addCat acc2 else acc2)
        acc) ↔
      a ∈ acc ∨ ∃ p ∈ k2c, (p.1 ≠ [] ∧ p.1 <:+: text) ∧ a ∈ p.2 := by
  induction k2c generalizing acc with
  | nil => simp
  | cons p k2c ih =>
    rw [List.foldl_cons]
    by_cases hc : p.1 ≠ [] ∧ p.1 <:+: text
    · rw [if_pos hc, ih, mem_foldl_addCat_iff]
      constructor
      · rintro ((ha | hp) | hrest)
        · exact Or.inl ha
        · exact Or.inr ⟨p, List.mem_cons_self p k2c, hc, hp⟩
        · rcases hrest with ⟨q, hq, hqc, hqa⟩
          exact Or.inr ⟨q, List.mem_cons_of_mem p hq, hqc, hqa⟩
      · rintro (ha | ⟨q, hq, hqc, hqa⟩)
        · exact Or.inl (Or.inl ha)
        · rcases List.mem_cons.mp hq with rfl | hq
          · exact Or.inl (Or.inr hqa)
          · exact Or.inr ⟨q, hq, hqc, hqa⟩
    · rw [if_neg hc, ih]
      constructor
      · rintro (ha | ⟨q, hq, hqc, hqa⟩)
        · exact Or.inl ha
        · exact Or.inr ⟨q, List.mem_cons_of_mem p hq, hqc, hqa⟩
      · rintro (ha | ⟨q, hq, hqc, hqa⟩)
        · exact Or.inl ha
        · rcases List.mem_cons.mp hq with rfl | hq
          · exact absurd hqc hc
          · exact Or.inr ⟨q, hq, hqc, hqa⟩

/-- Membership in the full scan of one transaction text. -/
theorem mem_scanCats_iff (k2c : List (Str × List Str)) (text : Str) (a : Str) :
    a ∈ scanCats k2c text ↔ ∃ p ∈ k2c, (p.1 ≠ [] ∧ p.1 <:+: text) ∧ a ∈ p.2 := by
  rw [scanCats, mem_scanFold_iff]
  simp

/-- The full scan accumulates a duplicate-free category set. -/
theorem scanCats_nodup (k2c : List (Str × List Str)) (text : Str) :
    (scanCats k2c text).Nodup := by
  rw [scanCats]
  have h : ∀ (l : List (Str × List Str)) (acc : List Str), acc.Nodup →
      (l.foldl
        (fun acc2 p => if p.1 ≠ [] ∧ p.1 <:+: text then p.2.foldl addCat acc2 else acc2)
        acc).Nodup := by
    intro l
    induction l with
    | nil => exact fun acc h => h
    | cons p l ih =>
      intro acc hacc
      rw [List.foldl_cons]
      by_cases hc : p.1 ≠ [] ∧ p.1 <:+: text
      · rw [if_pos hc]
        exact ih _ (foldl_addCat_nodup hacc)
      · rw [if_neg hc]
        exact ih _ hacc
  exact h k2c [] (by simp)

/-- Rescanning on top of an already complete category set changes nothing. -/
theorem scanFold_absorb (k2c : List (Str × List Str)) (text : Str) {acc : List Str}
    (h : ∀ p ∈ k2c, (p.1 ≠ [] ∧ p.1 <:+: text) → ∀ c ∈ p.2, c ∈ acc) :
    k2c.foldl
        (fun acc2 p => if p.1 ≠ [] ∧ p.1 <:+: text then p.2.foldl addCat acc2 else acc2)
        acc = acc := by
  induction k2c with
  | nil => rfl
  | cons p k2c ih =>
    rw [List.foldl_cons]
    by_cases hc : p.1 ≠ [] ∧ p.1 <:+: text
    · rw [if_pos hc, foldl_addCat_absorb (h p (List.mem_cons_self p k2c) hc)]
      exact ih (fun q hq hqc c hcq => h q (List.mem_cons_of_mem p hq) hqc c hcq)
    · rw [if_neg hc]
      exact ih (fun q hq hqc c hcq => h q (List.mem_cons_of_mem p hq) hqc c hcq)

/-- A scan with no matching pair leaves the seed unchanged. -/
theorem scanFold_of_no_match (k2c : List (Str × List Str)) (text : Str) (acc : List Str)
    (h : ¬ k2c.any (fun p => decide (p.1 ≠ [] ∧ p.1 <:+: text)) = true) :
    k2c.foldl
        (fun acc2 p => if p.1 ≠ [] ∧ p.1 <:+: text then p.2.foldl addCat acc2 else acc2)
        acc = acc := by
  induction k2c with
  | nil => rfl
  | cons p k2c ih =>
    rw [List.foldl_cons]
    have hp : ¬ (p.1 ≠ [] ∧ p.1 <:+: text) := by
      intro hc
      exact h (by simp [List.any_cons, hc])
    rw [if_neg hp]
    exact ih (fun hrest => h (by rw [List.any_cons, hrest, Bool.or_true]))

/-- A key is absent exactly when its lookup yields nothing. -/
theorem valAt_eq_none_iff (m : List (Str × List Str)) (t : Str) :
    valAt m t = none ↔ ¬ t ∈ m.map Prod.fst := by
  rw [valAt]
  simp only [Option.map_eq_none', List.find?_eq_none, decide_eq_true_eq, List.mem_map,
    not_exists]
  constructor
  · intro h p hp
    exact h p hp.1 hp.2
  · intro h p hp hfst
    exact h p ⟨hp, hfst⟩

/-- Updating a key stores the set-extended value under that key. -/
theorem valAt_updCats_self (m : List (Str × List Str)) (t : Str) (cs : List Str) :
    valAt (updCats m t cs) t = some (cs.foldl addCat ((valAt m t).getD [])) := by
  rw [updCats]
  by_cases hk : m.any (fun p => decide (p.1 = t)) = true
  · rcases List.any_eq_true.mp hk with ⟨w, hw, hwdec⟩
    cases hfind : m.find? (fun p => decide (p.1 = t)) with
    | none => exact absurd hwdec (List.find?_eq_none.mp hfind w hw)
    | some p =>
      have hp1 : p.1 = t := by
        have h := List.find?_some hfind
        exact of_decide_eq_true h
      have hv : valAt m t = some p.2 := by
        rw [valAt, hfind]
        rfl
      rw [hv, if_pos hk, valAt, List.find?_map]
      have hfeq : ((fun p : Str × List Str => decide (p.1 = t)) ∘
          (fun p : Str × List Str => if p.1 = t then (p.1, cs.foldl addCat p.2) else p)) =
          fun p : Str × List Str => decide (p.1 = t) := by
        funext q
        by_cases hc : q.1 = t
        · simp [hc]
        · simp [hc]
      rw [hfeq, hfind]
      simp [hp1]
  · have hfind : m.find? (fun p => decide (p.1 = t)) = none := by
      rw [List.find?_eq_none]
      intro p hp hdec
      exact hk (List.any_eq_true.mpr ⟨p, hp, hdec⟩)
    have hv : valAt m t = none := by
      rw [valAt, hfind]
      rfl
    rw [hv, if_neg hk, valAt, List.find?_append, hfind]
    simp [List.find?, Option.or]

/-- Updating one key leaves every other key's value unchanged. -/
theorem valAt_updCats_other (m : List (Str × List Str)) (t t' : Str) (cs : List Str)
    (h : t' ≠ t) : valAt (updCats m t cs) t' = valAt m t' := by
  rw [updCats]
  by_cases hk : m.any (fun p => decide (p.1 = t)) = true
  · rw [if_pos hk, valAt, List.find?_map]
    have hfeq : ((fun p : Str × List Str => decide (p.1 = t')) ∘
        (fun p : Str × List Str => if p.1 = t then (p.1, cs.foldl addCat p.2) else p)) =
        fun p : Str × List Str => decide (p.1 = t') := by
      funext q
      by_cases hc : q.1 = t
      · simp [hc]
      · simp [hc]
    rw [hfeq]
    cases hfind : m.find? (fun p => decide (p.1 = t')) with
    | none =>
      rw [valAt, hfind]
      rfl
    | some p =>
      have hp1 : p.1 = t' := by
        have hx := List.find?_some hfind
        exact of_decide_eq_true hx
      have hne : ¬ p.1 = t := by
        rw [hp1]
        exact h
      rw [valAt, hfind]
      simp [hne]
  · rw [if_neg hk, valAt, List.find?_append]
    have h1 : List.find? (fun p => decide (p.1 = t')) [(t, cs.foldl addCat [])] = none := by
      have hd : decide (t = t') = false := decide_eq_false (Ne.symm h)
      simp [List.find?, hd]
    rw [h1, Option.or_none]
    rfl

/-- A present key stays present across an update. -/
theorem valAt_updCats_ne_none (m : List (Str × List Str)) (t : Str) (cs : List Str)
    (t' : Str) (h : valAt m t' ≠ none) : valAt (updCats m t cs) t' ≠ none := by
  by_cases ht : t' = t
  · subst ht
    rw [valAt_updCats_self]
    simp
  · rw [valAt_updCats_other m t t' cs ht]
    exact h

/-- The per-transaction scan leaves other texts' entries unchanged. -/
theorem valAt_txScan_other (k2c : List (Str × List Str)) (text t' : Str)
    (h : t' ≠ text) (m : List (Str × List Str)) :
    valAt
        (k2c.foldl
          (fun m2 p => if p.1 ≠ [] ∧ p.1 <:+: text then updCats m2 text p.2 else m2) m)
        t' = valAt m t' := by
  induction k2c generalizing m with
  | nil => rfl
  | cons p k2c ih =>
    rw [List.foldl_cons]
    by_cases hc : p.1 ≠ [] ∧ p.1 <:+: text
    · rw [if_pos hc, ih, valAt_updCats_other _ _ _ _ h]
    · rw [if_neg hc, ih]

/-- The per-transaction scan's effect on the transaction's own entry: with at
least one matching pair it stores the full scan seeded with the old value,
otherwise it leaves the map unchanged. -/
theorem valAt_txScan_self (k2c : List (Str × List Str)) (text : Str)
    (m : List (Str × List Str)) :
    valAt
        (k2c.foldl
          (fun m2 p => if p.1 ≠ [] ∧ p.1 <:+: text then updCats m2 text p.2 else m2) m)
        text =
      if (k2c.any fun p => decide (p.1 ≠ [] ∧ p.1 <:+: text)) = true then
        some (k2c.foldl
          (fun acc2 p => if p.1 ≠ [] ∧ p.1 <:+: text then p.2.foldl addCat acc2 else acc2)
          ((valAt m text).getD []))
      else valAt m text := by
  induction k2c generalizing m with
  | nil => simp
  | cons p k2c ih =>
    by_cases hc : p.1 ≠ [] ∧ p.1 <:+: text
    · have hstep : List.foldl
          (fun m2 q => if q.1 ≠ [] ∧ q.1 <:+: text then updCats m2 text q.2 else m2) m
          (p :: k2c) =
          List.foldl
            (fun m2 q => if q.1 ≠ [] ∧ q.1 <:+: text then updCats m2 text q.2 else m2)
            (updCats m text p.2) k2c := by
        rw [List.foldl_cons, if_pos hc]
      have hscan : List.foldl
          (fun acc2 q => if q.1 ≠ [] ∧ q.1 <:+: text then q.2.foldl addCat acc2 else acc2)
          ((valAt m text).getD []) (p :: k2c) =
          List.foldl
            (fun acc2 q => if q.1 ≠ [] ∧ q.1 <:+: text then q.2.foldl addCat acc2 else acc2)
            (p.2.foldl addCat ((valAt m text).getD [])) k2c := by
        rw [List.foldl_cons, if_pos hc]
      have hany : ((p :: k2c).any fun q => decide (q.1 ≠ [] ∧ q.1 <:+: text)) = true := by
        rw [List.any_cons, decide_eq_true hc, Bool.true_or]
      rw [hstep, ih, if_pos hany, hscan, valAt_updCats_self]
      by_cases hany2 : (k2c.any fun q => decide (q.1 ≠ [] ∧ q.1 <:+: text)) = true
      · rw [if_pos hany2]
        simp
      · rw [if_neg hany2, scanFold_of_no_match k2c text _ hany2]
    · have hstep : List.foldl
          (fun m2 q => if q.1 ≠ [] ∧ q.1 <:+: text then updCats m2 text q.2 else m2) m
          (p :: k2c) =
          List.foldl
            (fun m2 q => if q.1 ≠ [] ∧ q.1 <:+: text then updCats m2 text q.2 else m2)
            m k2c := by
        rw [List.foldl_cons, if_neg hc]
      have hscan : List.foldl
          (fun acc2 q => if q.1 ≠ [] ∧ q.1 <:+: text then q.2.foldl addCat acc2 else acc2)
          ((valAt m text).getD []) (p :: k2c) =
          List.foldl
            (fun acc2 q => if q.1 ≠ [] ∧ q.1 <:+: text then q.2.foldl addCat acc2 else acc2)
            ((valAt m text).getD []) k2c := by
        rw [List.foldl_cons, if_neg hc]
      have hany : ((p :: k2c).any fun q => decide (q.1 ≠ [] ∧ q.1 <:+: text)) =
          (k2c.any fun q => decide (q.1 ≠ [] ∧ q.1 <:+: text)) := by
        rw [List.any_cons, decide_eq_false hc, Bool.false_or]
      rw [hstep, ih, hany, hscan]

/-- `updCats` keeps the key list duplicate-free. -/
theorem keys_nodup_updCats (m : List (Str × List Str)) (t : Str) (cs : List Str)
    (h : (m.map Prod.fst).Nodup) : ((updCats m t cs).map Prod.fst).Nodup := by
  rw [updCats]
  by_cases hk : m.any (fun p => decide (p.1 = t)) = true
  · rw [if_pos hk, keys_map_upd]
    exact h
  · rw [if_neg hk, List.map_append]
    have ht : ¬ t ∈ m.map Prod.fst := fun hmem => hk ((anyKey_iff m t).mpr hmem)
    simp [List.nodup_append, h, ht]

/-- The per-transaction scan keeps the key list duplicate-free. -/
theorem keys_nodup_txScan (k2c : List (Str × List Str)) (text : Str)
    (m : List (Str × List Str)) (h : (m.map Prod.fst).Nodup) :
    (((k2c.foldl
        (fun m2 p => if p.1 ≠ [] ∧ p.1 <:+: text then updCats m2 text p.2 else m2)
        m)).map Prod.fst).Nodup := by
  induction k2c generalizing m with
  | nil => exact h
  | cons p k2c ih =>
    rw [List.foldl_cons]
    by_cases hc : p.1 ≠ [] ∧ p.1 <:+: text
    · rw [if_pos hc]
      exact ih _ (keys_nodup_updCats m text p.2 h)
    · rw [if_neg hc]
      exact ih _ h

/-- Under duplicate-free keys, every pair is what lookup finds for its key. -/
theorem find?_eq_of_nodup_keys {β : Type} {m : List (Str × β)}
    (h : (m.map Prod.fst).Nodup) {p : Str × β} (hp : p ∈ m) :
    m.find? (fun q => decide (q.1 = p.1)) = some p := by
  induction m with
  | nil => cases hp
  | cons q m ih =>
    have h' := h
    rw [List.map_cons] at h'
    have hnd := List.nodup_cons.mp h'
    rcases List.mem_cons.mp hp with rfl | hp2
    · rw [List.find?_cons_of_pos _ (by simp)]
    · have hq : ¬ q.1 = p.1 := by
        intro he
        exact hnd.1 (he ▸ List.mem_map.mpr ⟨p, hp2, rfl⟩)
      rw [List.find?_cons_of_neg _ (by simpa using hq)]
      exact ih hnd.2 hp2

/-- A key is missing exactly when its value lookup misses, restated. -/
theorem mem_keys_of_valAt {m : List (Str × List Str)} {t : Str} {v : List Str}
    (h : valAt m t = some v) : ∃ p ∈ m, p.1 = t ∧ p.2 = v := by
  rw [valAt] at h
  cases hfind : m.find? (fun p => decide (p.1 = t)) with
  | none =>
    rw [hfind] at h
    cases h
  | some p =>
    rw [hfind] at h
    have hp1 : p.1 = t := by
      have hx := List.find?_some hfind
      exact of_decide_eq_true hx
    exact ⟨p, List.mem_of_find?_eq_some hfind, hp1, by simpa using h⟩

/-- After one transaction's scan, every stored pair holds the complete full
scan of its key, provided the incoming map already did. -/
theorem txScan_preserves_complete (k2c : List (Str × List Str)) (text : Str)
    (m : List (Str × List Str)) (hnd : (m.map Prod.fst).Nodup)
    (hcomp : ∀ p ∈ m, p.2 = scanCats k2c p.1) :
    ∀ p' ∈ k2c.foldl
        (fun m2 p => if p.1 ≠ [] ∧ p.1 <:+: text then updCats m2 text p.2 else m2) m,
      p'.2 = scanCats k2c p'.1 := by
  intro p' hp'
  have hnd' := keys_nodup_txScan k2c text m hnd
  have hval : valAt
      (k2c.foldl
        (fun m2 p => if p.1 ≠ [] ∧ p.1 <:+: text then updCats m2 text p.2 else m2) m)
      p'.1 = some p'.2 := by
    rw [valAt, find?_eq_of_nodup_keys hnd' hp']
    rfl
  by_cases ht : p'.1 = text
  · rw [ht] at hval
    rw [valAt_txScan_self] at hval
    by_cases hany : (k2c.any fun p => decide (p.1 ≠ [] ∧ p.1 <:+: text)) = true
    · rw [if_pos hany] at hval
      cases hv : valAt m text with
      | none =>
        rw [hv] at hval
        have : p'.2 = scanCats k2c text := by
          have hx := Option.some_inj.mp hval.symm
          rw [hx]
          rfl
        rw [ht, this]
      | some v =>
        rcases mem_keys_of_valAt hv with ⟨q, hq, hq1, hq2⟩
        have hvscan : v = scanCats k2c text := by
          rw [← hq2, hcomp q hq, hq1]
        rw [hv] at hval
        have hx := Option.some_inj.mp hval.symm
        rw [ht, hx, hvscan, Option.getD_some]
        refine scanFold_absorb k2c text ?_
        intro p hp hpc c hcp
        exact (mem_scanCats_iff k2c text c).mpr ⟨p, hp, hpc, hcp⟩
    · rw [if_neg hany] at hval
      rcases mem_keys_of_valAt hval with ⟨q, hq, hq1, hq2⟩
      rw [ht, ← hq2, hcomp q hq, hq1]
  · rw [valAt_txScan_other k2c text p'.1 ht m] at hval
    rcases mem_keys_of_valAt hval with ⟨q, hq, hq1, hq2⟩
    rw [← hq2, hcomp q hq, hq1]

/-- Keys after one transaction's scan come from the old map or are the text. -/
theorem keys_txScan_sub (k2c : List (Str × List Str)) (text : Str)
    (m : List (Str × List Str)) (t' : Str)
    (h : t' ∈ (k2c.foldl
        (fun m2 p => if p.1 ≠ [] ∧ p.1 <:+: text then updCats m2 text p.2 else m2)
        m).map Prod.fst) :
    t' ∈ m.map Prod.fst ∨ t' = text := by
  by_cases ht : t' = text
  · exact Or.inr ht
  · left
    by_contra hmem
    have hnone : valAt m t' = none := (valAt_eq_none_iff m t').mpr hmem
    have h2 : valAt
        (k2c.foldl
          (fun m2 p => if p.1 ≠ [] ∧ p.1 <:+: text then updCats m2 text p.2 else m2) m)
        t' = none := by
      rw [valAt_txScan_other k2c text t' ht m, hnone]
    exact ((valAt_eq_none_iff _ t').mp h2) h

/-- The `tx_to_category` map: keys are duplicate-free, every entry holds the
complete full scan of its key, and every key is some transaction's text. -/
theorem tx_to_category_inv (txs : List Transaction) (k2c : List (Str × List Str)) :
    ((tx_to_category txs k2c).map Prod.fst).Nodup ∧
      ∀ p ∈ tx_to_category txs k2c,
        p.2 = scanCats k2c p.1 ∧ ∃ tx ∈ txs, txText tx = p.1 := by
  have h : ∀ (l : List Transaction) (m : List (Str × List Str)),
      (m.map Prod.fst).Nodup → (∀ p ∈ m, p.2 = scanCats k2c p.1) →
      (((l.foldl
          (fun m2 tx =>
            k2c.foldl
              (fun m3 p =>
                if p.1 ≠ [] ∧ p.1 <:+: txText tx then updCats m3 (txText tx) p.2 else m3)
              m2)
          m).map Prod.fst).Nodup ∧
        ∀ p ∈ l.foldl
            (fun m2 tx =>
              k2c.foldl
                (fun m3 p =>
                  if p.1 ≠ [] ∧ p.1 <:+: txText tx then updCats m3 (txText tx) p.2 else m3)
                m2)
            m,
          p.2 = scanCats k2c p.1 ∧ (p.1 ∈ m.map Prod.fst ∨ ∃ tx ∈ l, txText tx = p.1)) := by
    intro l
    induction l with
    | nil =>
      intro m hnd hcomp
      exact ⟨hnd, fun p hp => ⟨hcomp p hp, Or.inl (List.mem_map.mpr ⟨p, hp, rfl⟩)⟩⟩
    | cons tx l ih =>
      intro m hnd hcomp
      rw [List.foldl_cons]
      have hnd2 := keys_nodup_txScan k2c (txText tx) m hnd
      have hcomp2 := txScan_preserves_complete k2c (txText tx) m hnd hcomp
      obtain ⟨h1, h2⟩ := ih _ hnd2 hcomp2
      refine ⟨h1, fun p hp => ⟨(h2 p hp).1, ?_⟩⟩
      rcases (h2 p hp).2 with hk | ⟨tx2, htx2, he⟩
      · rcases keys_txScan_sub k2c (txText tx) m p.1 hk with hk2 | hk2
        · exact Or.inl hk2
        · exact Or.inr ⟨tx, List.mem_cons_self tx l, hk2.symm⟩
      · exact Or.inr ⟨tx2, List.mem_cons_of_mem tx htx2, he⟩
  obtain ⟨h1, h2⟩ := h txs [] (by simp) (by simp)
  refine ⟨h1, fun p hp => ⟨(h2 p hp).1, ?_⟩⟩
  rcases (h2 p hp).2 with hk | he
  · simp at hk
  · exact he

/-- A present key survives one transaction's scan. -/
theorem valAt_txScan_ne_none (k2c : List (Str × List Str)) (text : Str)
    (m : List (Str × List Str)) (t' : Str) (h : valAt m t' ≠ none) :
    valAt
        (k2c.foldl
          (fun m2 p => if p.1 ≠ [] ∧ p.1 <:+: text then updCats m2 text p.2 else m2) m)
        t' ≠ none := by
  by_cases ht : t' = text
  · subst ht
    rw [valAt_txScan_self]
    by_cases hany : (k2c.any fun p => decide (p.1 ≠ [] ∧ p.1 <:+: t')) = true
    · rw [if_pos hany]
      simp
    · rw [if_neg hany]
      exact h
  · rw [valAt_txScan_other k2c text t' ht m]
    exact h

/-- A present key survives the remaining transactions' scans. -/
theorem valAt_txFold_ne_none (k2c : List (Str × List Str)) (l : List Transaction)
    (m : List (Str × List Str)) (t' : Str) (h : valAt m t' ≠ none) :
    valAt
        (l.foldl
          (fun m2 tx =>
            k2c.foldl
              (fun m3 p =>
                if p.1 ≠ [] ∧ p.1 <:+: txText tx then updCats m3 (txText tx) p.2 else m3)
              m2)
          m)
        t' ≠ none := by
  induction l generalizing m with
  | nil => exact h
  | cons tx l ih =>
    rw [List.foldl_cons]
    exact ih _ (valAt_txScan_ne_none k2c (txText tx) m t' h)

/-- A transaction with a non-empty full scan owns an entry in the map. -/
theorem tx_to_category_present (txs : List Transaction) (k2c : List (Str × List Str))
    (tx : Transaction) (htx : tx ∈ txs) (hne : scanCats k2c (txText tx) ≠ []) :
    valAt (tx_to_category txs k2c) (txText tx) ≠ none := by
  have hany : (k2c.any fun p => decide (p.1 ≠ [] ∧ p.1 <:+: txText tx)) = true := by
    by_contra hn
    exact hne (scanFold_of_no_match k2c (txText tx) [] hn)
  have h : ∀ (l : List Transaction) (m : List (Str × List Str)), tx ∈ l →
      valAt
          (l.foldl
            (fun m2 tx2 =>
              k2c.foldl
                (fun m3 p =>
                  if p.1 ≠ [] ∧ p.1 <:+: txText tx2 then updCats m3 (txText tx2) p.2 else m3)
                m2)
            m)
          (txText tx) ≠ none := by
    intro l
    induction l with
    | nil =>
      intro m hmem
      cases hmem
    | cons tx0 l ih =>
      intro m hmem
      rw [List.foldl_cons]
      rcases List.mem_cons.mp hmem with rfl | hmem2
      · refine valAt_txFold_ne_none k2c l _ _ ?_
        rw [valAt_txScan_self, if_pos hany]
        simp
      · exact ih _ hmem2
  exact h txs [] htx

/-- The full scan's list and the specification-side category set agree. -/
theorem scanCats_toFinset (k2c : List (Str × List Str)) (text : Str) :
    (scanCats k2c text).toFinset = matchedCatsSet k2c text := by
  apply Finset.ext
  intro a
  rw [List.mem_toFinset, mem_scanCats_iff, matchedCatsSet, List.mem_toFinset,
    List.mem_flatMap]
  constructor
  · rintro ⟨p, hp, hc, ha⟩
    exact ⟨p, List.mem_filter.mpr ⟨hp, by simpa using hc⟩, ha⟩
  · rintro ⟨p, hp, ha⟩
    have h2 := List.mem_filter.mp hp
    exact ⟨p, h2.1, by simpa using h2.2, ha⟩

/-- Cardinality of the matched-category set as a list length. -/
theorem matchedCatsSet_card (k2c : List (Str × List Str)) (text : Str) :
    (matchedCatsSet k2c text).card = (scanCats k2c text).length := by
  rw [← scanCats_toFinset, List.toFinset_card_of_nodup (scanCats_nodup k2c text)]

/-- Membership in the inconsistency report, characterised. -/
theorem check_category_consistency_mem_iff (txs : List Transaction)
    (k2c : List (Str × List Str)) (text : Str) :
    (∃ cs, (text, cs) ∈ check_category_consistency txs k2c) ↔
      ((∃ tx ∈ txs, txText tx = text) ∧ 1 < (matchedCatsSet k2c text).card) := by
  obtain ⟨hnd, hinv⟩ := tx_to_category_inv txs k2c
  constructor
  · rintro ⟨cs, hmem⟩
    have h2 := List.mem_filter.mp hmem
    obtain ⟨hcomp, tx, htx, htext⟩ := hinv _ h2.1
    refine ⟨⟨tx, htx, htext⟩, ?_⟩
    rw [matchedCatsSet_card]
    have hcs : cs = scanCats k2c text := hcomp
    rw [← hcs]
    simpa using h2.2
  · rintro ⟨⟨tx, htx, htext⟩, hcard⟩
    have hlen : 1 < (scanCats k2c text).length := by
      rwa [matchedCatsSet_card] at hcard
    have hne : scanCats k2c (txText tx) ≠ [] := by
      rw [htext]
      intro h0
      rw [h0] at hlen
      simp at hlen
    have hpres := tx_to_category_present txs k2c tx htx hne
    cases hv : valAt (tx_to_category txs k2c) (txText tx) with
    | none => exact absurd hv hpres
    | some v =>
      rcases mem_keys_of_valAt hv with ⟨q, hq, hq1, hq2⟩
      obtain ⟨hcomp, _⟩ := hinv q hq
      have hq1t : q.1 = text := by
        rw [hq1, htext]
      have hv2 : q.2 = scanCats k2c text := by
        rw [hcomp, hq1t]
      refine ⟨q.2, ?_⟩
      have hqe : q = (text, q.2) := by
        rw [← hq1t]
      rw [check_category_consistency]
      refine List.mem_filter.mpr ⟨?_, ?_⟩
      · rw [← hqe]
        exact hq
      · exact decide_eq_true (by rw [hv2]; exact hlen)

/-- C7 counterexample to the claim as stated: with a keyword that strips to
the empty string under category `A` and keyword `x` under category `B`,
the full scan in the claim's substring reading matches both keywords of
the text (the empty string occurs in every text), yielding two distinct
categories, yet the code's inconsistency report is empty because the scan
skips empty keywords. -/
theorem C7_counterexample_empty_keyword :
    build_keyword_mappings spaceKwCats = [([], ["a".data]), ("x".data, ["b".data])] ∧
    ([] : Str) <:+: txText txX ∧
    "x".data <:+: txText txX ∧
    ("a".data : Str) ≠ "b".data ∧
    check_category_consistency [txX] (build_keyword_mappings spaceKwCats) = [] :=
  ⟨by decide, by decide, by decide, by decide, by decide⟩

/-- C7 (amended): the inconsistency report contains exactly those distinct
transaction texts for which the full scan over the *non-empty* keywords
occurring in the text yields more than one distinct category, and it
records for each such text precisely that full-scan category set. -/
theorem C7_inconsistent_full_scan :
    (∀ (txs : List Transaction) (k2c : List (Str × List Str)) (text : Str),
        (∃ cs, (text, cs) ∈ check_category_consistency txs k2c) ↔
          ((∃ tx ∈ txs, txText tx = text) ∧ 1 < (matchedCatsSet k2c text).card)) ∧
    (∀ (txs : List Transaction) (k2c : List (Str × List Str)),
        ∀ p ∈ check_category_consistency txs k2c, p.2 = scanCats k2c p.1) := by
  constructor
  · exact check_category_consistency_mem_iff
  · intro txs k2c p hp
    exact ((tx_to_category_inv txs k2c).2 p (List.mem_filter.mp hp).1).1

/-!  Helper lemmas about the classifier adapter's retry loop. -/

/-- The attempt counter never exceeds the retry ceiling. -/
theorem genCatAttempt_attempts_le (v : Str → Bool) (r : ℕ → Str) :
    ∀ a d : ℕ, (genCatAttempt v r a d).attempts ≤ MAX_ATTEMPTS := by
  have hM : MAX_ATTEMPTS = 3 := rfl
  have h : ∀ (fuel a d : ℕ), MAX_ATTEMPTS + 1 - a ≤ fuel →
      (genCatAttempt v r a d).attempts ≤ MAX_ATTEMPTS := by
    intro fuel
    induction fuel with
    | zero =>
      intro a d hf
      have ha : ¬ a ≤ MAX_ATTEMPTS := by omega
      rw [genCatAttempt, if_neg ha]
    | succ fuel ih =>
      intro a d hf
      rw [genCatAttempt]
      by_cases ha : a ≤ MAX_ATTEMPTS
      · rw [if_pos ha]
        by_cases hv : v (r a) = true
        · rw [if_pos hv]
          exact ha
        · rw [if_neg hv]
          exact ih (a + 1) (d + 2) (by omega)
      · rw [if_neg ha]
  exact fun a d => h (MAX_ATTEMPTS + 1) a d (by omega)

/-- When every attempt is invalid, the run makes exactly three attempts with
a total of six delay units, persists the last malformed response, and
signals the hard failure instead of returning a result. -/
theorem genCatRun_all_invalid (v : Str → Bool) (r : ℕ → Str)
    (h : ∀ k, 1 ≤ k → k ≤ MAX_ATTEMPTS → v (r k) = false) :
    genCatRun v r =
      ⟨MAX_ATTEMPTS, 6, some (r MAX_ATTEMPTS), Except.error genCatFailureMsg⟩ := by
  have h1 := h 1 (by decide) (by decide)
  have h2 := h 2 (by decide) (by decide)
  have h3 := h 3 (by decide) (by decide)
  simp [genCatRun, genCatAttempt, MAX_ATTEMPTS, h1, h2, h3]

/-- When attempt `k` is the first valid one, the run stops there, persists
that response, and returns it, after two delay units per failed attempt. -/
theorem genCatRun_first_valid (v : Str → Bool) (r : ℕ → Str) (k : ℕ)
    (hk1 : 1 ≤ k) (hk2 : k ≤ MAX_ATTEMPTS)
    (hfail : ∀ j, 1 ≤ j → j < k → v (r j) = false) (hok : v (r k) = true) :
    genCatRun v r = ⟨k, 2 * (k - 1), some (r k), Except.ok (r k)⟩ := by
  have hk2' : k ≤ 3 := hk2
  interval_cases k
  · simp [genCatRun, genCatAttempt, MAX_ATTEMPTS, hok]
  · have hf1 := hfail 1 (by decide) (by decide)
    simp [genCatRun, genCatAttempt, MAX_ATTEMPTS, hf1, hok]
  · have hf1 := hfail 1 (by decide) (by decide)
    have hf2 := hfail 2 (by decide) (by decide)
    simp [genCatRun, genCatAttempt, MAX_ATTEMPTS, hf1, hf2, hok]

/-- C1 counterexample to the claim as stated: a run whose three attempts all
return malformed text persists the malformed output and raises the hard
failure, yet the orchestrator's round still runs the Cleaner and the
Evaluator stages after the failed classifier subprocess (its `run_script`
never inspects the exit status), and the merge step still runs. -/
theorem C1_counterexample_failure_does_not_abort :
    genCatRun (fun _ => false) (fun _ => "oops".data) =
      ⟨3, 6, some "oops".data, Except.error genCatFailureMsg⟩ ∧
    (roundStages failedGenCatProc okProc okProc).map Prod.fst =
      [Stage.genCat, Stage.cleaner, Stage.evaluator] ∧
    (mainPipeline (fun _ => 1) [] []).mergedCategories = merge_category_json_files [] := by
  refine ⟨?_, rfl, rfl⟩
  simp [genCatRun, genCatAttempt, MAX_ATTEMPTS]

/-- C1 (amended): the adapter validates each response, retries up to 3
attempts with 2 delay units between attempts, and on total failure
persists the malformed output and signals the hard failure rather than
returning empty results; however the orchestrator's `run_script` ignores
the child's exit status, so the failure does not abort the pipeline: the
Cleaner and Evaluator stages of the round and the final merge still run. -/
theorem C1_adapter_retry_and_no_abort :
    (∀ (isValid : Str → Bool) (responses : ℕ → Str),
        (genCatRun isValid responses).attempts ≤ MAX_ATTEMPTS) ∧
    (∀ (isValid : Str → Bool) (responses : ℕ → Str),
        (∀ k, 1 ≤ k → k ≤ MAX_ATTEMPTS → isValid (responses k) = false) →
        genCatRun isValid responses =
          ⟨MAX_ATTEMPTS, 6, some (responses MAX_ATTEMPTS),
            Except.error genCatFailureMsg⟩) ∧
    (∀ (isValid : Str → Bool) (responses : ℕ → Str) (k : ℕ),
        1 ≤ k → k ≤ MAX_ATTEMPTS →
        (∀ j, 1 ≤ j → j < k → isValid (responses j) = false) →
        isValid (responses k) = true →
        genCatRun isValid responses =
          ⟨k, 2 * (k - 1), some (responses k), Except.ok (responses k)⟩) ∧
    (∀ p1 p2 p3 : CompletedProcess,
        (roundStages p1 p2 p3).map Prod.fst =
          [Stage.genCat, Stage.cleaner, Stage.evaluator]) ∧
    (∀ (counts : ℕ → ℕ) (uncatFiles : List (List Transaction))
        (cleanedFiles : List (List GenAICat)),
        (mainPipeline counts uncatFiles cleanedFiles).mergedUnmatched =
          merge_json_files uncatFiles) :=
  ⟨fun v r => genCatAttempt_attempts_le v r 1 0, genCatRun_all_invalid,
    genCatRun_first_valid, fun _ _ _ => rfl, fun _ _ _ => rfl⟩

/-- Witness for C1: the all-invalid characterisation at a concrete run. -/
theorem C1_adapter_retry_and_no_abort_witness :
    genCatRun (fun _ => false) (fun _ => "bad".data) =
      ⟨MAX_ATTEMPTS, 6, some ((fun _ : ℕ => "bad".data) MAX_ATTEMPTS),
        Except.error genCatFailureMsg⟩ :=
  C1_adapter_retry_and_no_abort.2.1 (fun _ => false) (fun _ => "bad".data)
    (fun _ _ _ => rfl)
